import Mathlib

set_option linter.unusedSectionVars false
set_option maxRecDepth 10000

/-!
A verification development for the grouped-aggregation core of a columnar
DataFrame engine (polars-core groupby, the lazy physical planner's
partitionability gate, and the partitioned group-by executor).

Modelling conventions:
* Row indices are `Nat` (the source uses `u32`; all indices here are list
  positions, far below `2^32`, so no wrap-around arithmetic occurs).
* The per-thread and serial hash tables (`hashbrown::HashMap` /
  `prepare_hashed_relation`) are modelled as association lists kept in
  insertion order.  Iteration order of the real hash map is unspecified and
  seed-dependent; insertion order is one realizable iteration order, and all
  order-sensitive statements below are read with that determinization in
  mind (it is spelled out again at the theorems it affects).
* Hashing (`ahash::RandomState`, `create_hash_and_keys_threaded_vectorized`,
  `df_rows_to_hashes`) is modelled by an arbitrary function `h : κ → Nat`
  shared by all workers, exactly as the source shares one `RandomState`
  across threads.  Theorems quantify over `h`, hence hold for every seed.
* The partition predicate `(h + thread_no) % n_threads == 0` adds in `u64`
  and the addition wraps at `2^64`; the model carries the wrap explicitly
  as `((h + t) % 2^64) % T == 0`.
-/

namespace Polars

/-- `GroupTuples` (groupby/mod.rs:23): a list of
`(first_row_index, member_row_indices)` pairs. -/
abbrev GroupTuples := List (Nat × List Nat)

/-- A hash table of a group-by pass: association list from key to
`(first index, member indices)`, in insertion order
(models `HashMap<T, (u32, Vec<u32>), RandomState>`, groupby/mod.rs:72). -/
abbrev Table (κ : Type) := List (κ × Nat × List Nat)

variable {κ : Type} [DecidableEq κ]

/-- One insertion step of the group hash table (groupby/mod.rs:88-103):
on a vacant entry a fresh `(idx, vec![idx])` is inserted, on an occupied
entry `idx` is pushed onto the member vector. -/
def addToTable (tbl : Table κ) (k : κ) (i : Nat) : Table κ :=
  match tbl with
  | [] => [(k, (i, [i]))]
  | e :: rest =>
    if k = e.1 then (e.1, (e.2.1, e.2.2 ++ [i])) :: rest
    else e :: addToTable rest k i

/-- Indexed key stream: the `(row_index, key)` pairs of a shard whose first
row has global index `i0` (models `iter().enumerate()` plus the
`idx + offset` shift, groupby/mod.rs:81-87). -/
def withIdx (i0 : Nat) : List κ → List (Nat × κ)
  | [] => []
  | k :: ks => (i0, k) :: withIdx (i0 + 1) ks

/-- Fold the `(idx, key)` pairs into a table, inserting only the pairs whose
key passes `p` (the partition predicate; `p := fun _ => true` for the serial
path). -/
def insertPairs (p : κ → Bool) (tbl : Table κ) : List (Nat × κ) → Table κ
  | [] => tbl
  | q :: qs => insertPairs p (if p q.2 then addToTable tbl q.2 q.1 else tbl) qs

/-- Serial single-key group discovery (groupby/mod.rs:26-39 `groupby`):
one pass over the keys accumulating member vectors per key, then the table
is projected to `(first, members)` pairs.  `first = indexes[0]` in the
source equals the index stored at vacant insertion here. -/
def groupby (keys : List κ) : GroupTuples :=
  (insertPairs (fun _ => true) [] (withIdx 0 keys)).map (·.2)

/-- The `u64` modulus: the partition-predicate addition is performed in
wrapping `u64` arithmetic. -/
def U64 : Nat := 2 ^ 64

/-- The partition predicate of the sharded-parallel path
(`(h + thread_no) % n_threads == 0`, groupby/mod.rs:86, and
`this_thread` at groupby/mod.rs:233).  `h`, `thread_no` and `n_threads`
are `u64`, so the addition `h + thread_no` wraps at `2^64` — hence the
explicit `% U64` on the sum. -/
def this_thread (h t T : Nat) : Bool := ((h + t) % U64) % T == 0

/-- The hash table built by worker `t` of `T` on the sharded-parallel path
(groupby/mod.rs:67-109): the worker scans every shard, keeps a running
offset, and inserts exactly the pairs whose hash satisfies the partition
predicate, at their global (offset-shifted) row index. -/
def workerScan (h : κ → Nat) (t T : Nat) (tbl : Table κ) :
    List (List κ) → Nat → Table κ
  | [], _ => tbl
  | s :: rest, off =>
    workerScan h t T
      (insertPairs (fun k => this_thread (h k) t T) tbl (withIdx off s))
      rest (off + s.length)

/-- `groupby_threaded` (groupby/mod.rs:54-113): one group-tuple list per
worker; worker `t` owns the keys whose hash satisfies the partition
predicate for `t`.  `T = iters.len()` is the number of shards. -/
def groupby_threaded (h : κ → Nat) (shards : List (List κ)) :
    List GroupTuples :=
  (List.range shards.length).map fun t =>
    (workerScan h t shards.length [] shards 0).map (·.2)

/-- `groupby_threaded_flat` (groupby/mod.rs:41-50): the per-worker group
tuples concatenated in worker order. -/
def groupby_threaded_flat (h : κ → Nat) (shards : List (List κ)) :
    GroupTuples :=
  (groupby_threaded h shards).flatten

/-- All member indices of a table, in entry order. -/
def membersConcat (tbl : Table κ) : List Nat :=
  tbl.flatMap (fun e => e.2.2)

/-- All member indices of a `GroupTuples` value, in entry order. -/
def tuplesConcat (gt : GroupTuples) : List Nat :=
  gt.flatMap (fun e => e.2)

theorem tuplesConcat_of_table (tbl : Table κ) :
    tuplesConcat (tbl.map (·.2)) = membersConcat tbl := by
  induction tbl with
  | nil => rfl
  | cons e rest ih =>
    simp [tuplesConcat, membersConcat] at *
    exact ih

/-! ### Counting members -/

theorem count_membersConcat_addToTable (tbl : Table κ) (k : κ) (i j : Nat) :
    (membersConcat (addToTable tbl k i)).count j =
      (membersConcat tbl).count j + if i = j then 1 else 0 := by
  induction tbl with
  | nil =>
    simp [addToTable, membersConcat, List.count_cons]
  | cons e rest ih =>
    by_cases hk : k = e.1
    · simp [addToTable, hk, membersConcat, List.count_append, List.count_cons]
      omega
    · simp [addToTable, hk, membersConcat, List.count_append] at *
      omega

theorem count_membersConcat_insertPairs (p : κ → Bool) (tbl : Table κ)
    (ps : List (Nat × κ)) (j : Nat) :
    (membersConcat (insertPairs p tbl ps)).count j =
      (membersConcat tbl).count j
        + ((ps.filter (fun q => p q.2)).map (·.1)).count j := by
  induction ps generalizing tbl with
  | nil => simp [insertPairs]
  | cons q qs ih =>
    by_cases hp : p q.2
    · simp only [insertPairs, hp, if_pos]
      rw [ih, count_membersConcat_addToTable]
      simp [List.filter_cons, hp, List.count_cons]
      omega
    · simp only [insertPairs, hp]
      rw [if_neg (by simp [hp]), ih]
      simp [List.filter_cons, hp]

/-- Counting a global index among the filtered `(idx,key)` pairs of one
indexed shard. -/
theorem count_withIdx_filter (p : Nat × κ → Bool) (ks : List κ)
    (i0 j : Nat) :
    (((withIdx i0 ks).filter p).map (·.1)).count j =
      if i0 ≤ j then
        match ks.get? (j - i0) with
        | some k => if p (j, k) then 1 else 0
        | none => 0
      else 0 := by
  induction ks generalizing i0 with
  | nil => simp [withIdx]
  | cons k ks ih =>
    simp only [withIdx, List.filter_cons]
    by_cases hj : j = i0
    · subst hj
      have h0 : j - j = 0 := by omega
      by_cases hp : p (j, k)
      · simp [hp, List.count_cons, ih, h0]
      · simp [hp, ih, h0]
    · have hij : (j - i0 = (j - (i0 + 1)) + 1) ∨ j < i0 := by omega
      by_cases hp : p (i0, k)
      · simp only [hp, if_pos, List.map_cons, List.count_cons]
        rw [ih]
        rcases hij with hij | hij
        · rw [hij]
          simp only [List.get?_cons_succ]
          have : (i0 ≤ j) = (i0 + 1 ≤ j) := by
            apply propext; constructor <;> intro <;> omega
          simp [hj, Ne.symm hj, this]
        · have h1 : ¬ i0 ≤ j := by omega
          have h2 : ¬ i0 + 1 ≤ j := by omega
          simp [h1, h2, hj, Ne.symm hj]
      · simp only [hp]
        rw [if_neg (by simp [hp]), ih]
        rcases hij with hij | hij
        · rw [hij]
          simp only [List.get?_cons_succ]
          have : (i0 ≤ j) = (i0 + 1 ≤ j) := by
            apply propext; constructor <;> intro <;> omega
          simp [this]
        · have h1 : ¬ i0 ≤ j := by omega
          have h2 : ¬ i0 + 1 ≤ j := by omega
          simp [h1, h2]

/-! ### The worker scan flattened: shards with offsets are one indexed pass -/

theorem withIdx_append (i0 : Nat) (a b : List κ) :
    withIdx i0 (a ++ b) = withIdx i0 a ++ withIdx (i0 + a.length) b := by
  induction a generalizing i0 with
  | nil => simp [withIdx]
  | cons k ks ih =>
    simp [withIdx, ih, Nat.add_assoc, Nat.add_comm 1]

theorem insertPairs_append (p : κ → Bool) (tbl : Table κ)
    (a b : List (Nat × κ)) :
    insertPairs p tbl (a ++ b) = insertPairs p (insertPairs p tbl a) b := by
  induction a generalizing tbl with
  | nil => simp [insertPairs]
  | cons q qs ih => simp [insertPairs, ih]

theorem workerScan_eq_insertPairs (h : κ → Nat) (t T : Nat) (tbl : Table κ)
    (shards : List (List κ)) (off : Nat) :
    workerScan h t T tbl shards off =
      insertPairs (fun k => this_thread (h k) t T) tbl
        (withIdx off shards.flatten) := by
  induction shards generalizing tbl off with
  | nil => simp [workerScan, insertPairs, withIdx]
  | cons s rest ih =>
    simp only [workerScan, List.flatten_cons, withIdx_append,
      insertPairs_append]
    exact ih _ _

/-! ### The partition predicate selects exactly one worker — below the
wrap zone.  When `h + t` overflows `u64` the predicate can hold for two
workers (see `c3_counterexample`); uniqueness needs `h + T ≤ 2^64`. -/

theorem this_thread_of_nowrap (h t T : Nat) (hw : h + t < U64) :
    this_thread h t T = ((h + t) % T == 0) := by
  rw [this_thread, Nat.mod_eq_of_lt hw]

theorem this_thread_char (h T t : Nat) (hT : 1 ≤ T) (ht : t < T)
    (hw : h + T ≤ U64) :
    this_thread h t T = true ↔ (h % T + t = 0 ∨ h % T + t = T) := by
  have hrlt : h % T < T := Nat.mod_lt _ hT
  rw [this_thread_of_nowrap h t T (by omega)]
  rw [beq_iff_eq, Nat.add_mod, Nat.mod_eq_of_lt ht]
  constructor
  · intro hm
    by_cases hcase : h % T + t < T
    · rw [Nat.mod_eq_of_lt hcase] at hm
      exact Or.inl hm
    · right
      have hle : T ≤ h % T + t := Nat.le_of_not_lt hcase
      rw [Nat.mod_eq_sub_mod hle] at hm
      have hlt2 : h % T + t - T < T := by omega
      rw [Nat.mod_eq_of_lt hlt2] at hm
      omega
  · intro hm
    rcases hm with hm | hm
    · rw [hm]
      exact Nat.zero_mod T
    · rw [hm]
      exact Nat.mod_self T

theorem this_thread_exists_unique (h T : Nat) (hT : 1 ≤ T)
    (hw : h + T ≤ U64) :
    ∃! t, t < T ∧ this_thread h t T = true := by
  have hrlt : h % T < T := Nat.mod_lt _ hT
  refine ⟨if h % T = 0 then 0 else T - h % T, ⟨?_, ?_⟩, ?_⟩
  · by_cases hr : h % T = 0
    · rw [if_pos hr]; omega
    · rw [if_neg hr]; omega
  · by_cases hr : h % T = 0
    · rw [if_pos hr, this_thread_char h T 0 hT (by omega) hw]; omega
    · rw [if_neg hr, this_thread_char h T (T - h % T) hT (by omega) hw]
      omega
  · rintro t ⟨htT, hpred⟩
    rw [this_thread_char h T t hT htT hw] at hpred
    by_cases hr : h % T = 0
    · rw [if_pos hr]; omega
    · rw [if_neg hr]; omega

theorem sum_ite_eq_countP (p : Nat → Bool) (l : List Nat) :
    (l.map (fun t => if p t = true then 1 else 0)).sum = l.countP p := by
  induction l with
  | nil => simp
  | cons x xs ih =>
    by_cases hx : p x <;> simp [List.countP_cons, hx, ih, Nat.add_comm]

theorem countP_this_thread (h T : Nat) (hT : 1 ≤ T) (hw : h + T ≤ U64) :
    (List.range T).countP (fun t => this_thread h t T) = 1 := by
  obtain ⟨t0, ⟨ht0, hp0⟩, huniq⟩ := this_thread_exists_unique h T hT hw
  have hcongr : ∀ t ∈ List.range T,
      (this_thread h t T = true ↔ (t == t0) = true) := by
    intro t ht
    rw [List.mem_range] at ht
    rw [beq_iff_eq]
    constructor
    · intro hp
      exact huniq t ⟨ht, hp⟩
    · intro he
      rw [he]
      exact hp0
  rw [List.countP_congr hcongr]
  have hcc : (List.range T).countP (fun t => t == t0)
      = (List.range T).count t0 := rfl
  rw [hcc, List.count_eq_one_of_mem (List.nodup_range T)
    (List.mem_range.mpr ht0)]

/-! ### Counting rows in the serial and threaded outputs -/

theorem count_flatten_eq_sum (l : List (List Nat)) (j : Nat) :
    l.flatten.count j = (l.map (List.count j)).sum := by
  induction l with
  | nil => rfl
  | cons x xs ih => simp [List.count_append, ih]

theorem count_groupby (keys : List κ) (j : Nat) :
    (tuplesConcat (groupby keys)).count j =
      if j < keys.length then 1 else 0 := by
  rw [groupby, tuplesConcat_of_table, count_membersConcat_insertPairs]
  simp only [membersConcat, List.flatMap_nil, List.count_nil, Nat.zero_add]
  have : (withIdx 0 keys).filter (fun q => (fun _ => true) q.2)
      = (withIdx 0 keys).filter (fun _ => true) := rfl
  rw [this, count_withIdx_filter]
  simp only [Nat.zero_le, if_pos, Nat.sub_zero]
  cases hg : keys.get? j with
  | none =>
    rw [List.get?_eq_none] at hg
    simp [Nat.not_lt_of_le hg]
  | some k =>
    have : j < keys.length := by
      by_contra hlt
      rw [List.get?_eq_none.mpr (Nat.le_of_not_lt hlt)] at hg
      exact Option.noConfusion hg
    simp [this]

theorem count_worker (h : κ → Nat) (shards : List (List κ)) (t j : Nat) :
    (membersConcat (workerScan h t shards.length [] shards 0)).count j =
      match shards.flatten.get? j with
      | some k => if this_thread (h k) t shards.length then 1 else 0
      | none => 0 := by
  rw [workerScan_eq_insertPairs, count_membersConcat_insertPairs]
  simp only [membersConcat, List.flatMap_nil, List.count_nil, Nat.zero_add]
  rw [count_withIdx_filter (fun q => this_thread (h q.2) t shards.length)]
  simp only [Nat.zero_le, if_pos, Nat.sub_zero]

theorem tuplesConcat_flatten (A : List GroupTuples) :
    tuplesConcat A.flatten = (A.map tuplesConcat).flatten := by
  induction A with
  | nil => rfl
  | cons a rest ih =>
    simp only [List.flatten_cons, tuplesConcat, List.flatMap_append,
      List.map_cons]
    rw [← tuplesConcat, ← tuplesConcat, ih]

theorem count_groupby_threaded_flat (h : κ → Nat) (shards : List (List κ))
    (hT : 1 ≤ shards.length)
    (hw : ∀ k ∈ shards.flatten, h k + shards.length ≤ U64) (j : Nat) :
    (tuplesConcat (groupby_threaded_flat h shards)).count j =
      if j < shards.flatten.length then 1 else 0 := by
  rw [groupby_threaded_flat, tuplesConcat_flatten, count_flatten_eq_sum,
    groupby_threaded]
  simp only [List.map_map]
  have hmaps : (List.range shards.length).map
      (List.count j ∘ tuplesConcat ∘
        fun t => (workerScan h t shards.length [] shards 0).map (·.2))
      = (List.range shards.length).map (fun t =>
          match shards.flatten.get? j with
          | some k => if this_thread (h k) t shards.length then 1 else 0
          | none => 0) := by
    apply List.map_congr_left
    intro t _
    simp only [Function.comp_apply]
    rw [tuplesConcat_of_table, count_worker]
  rw [hmaps]
  cases hg : shards.flatten.get? j with
  | none =>
    have hge : ¬ j < shards.flatten.length := by
      rw [List.get?_eq_none] at hg
      omega
    rw [if_neg hge]
    apply List.sum_eq_zero
    intro x hx
    rw [List.mem_map] at hx
    obtain ⟨t, _, rfl⟩ := hx
    rfl
  | some k =>
    have hlt : j < shards.flatten.length := by
      by_contra hlt
      rw [List.get?_eq_none.mpr (Nat.le_of_not_lt hlt)] at hg
      exact Option.noConfusion hg
    simp only [hlt, if_pos]
    rw [sum_ite_eq_countP (fun t => this_thread (h k) t shards.length)]
    exact countP_this_thread (h k) shards.length hT
      (hw k (List.get?_mem hg))

/-! ### Multi-key group discovery

The multiple-key hash tables (groupby/mod.rs:176-255) key entries by
`IdxHash` (row index + hash) and resolve equality by comparing the rows of
the original key DataFrame at the stored and probed indices
(`compare_df_rows`, groupby/mod.rs:123-130, componentwise with short
circuit).  A row of the key frame is modelled as one value of an arbitrary
type `ρ` with decidable equality (componentwise tuple equality is decidable
equality on the tuple).  The hash-equality pre-check of `from_hash` is
implied by row equality, because the row hash is a function of the row. -/

variable {ρ : Type} [DecidableEq ρ]

/-- One step of `populate_multiple_key_hashmap` (groupby/mod.rs:137-174):
vacant inserts `(idx, vec![idx])`, occupied pushes `idx`.  The stored
`IdxHash` index always equals the group's first member, so entries carry
only `(first, members)`. -/
def addMulti (rows : List ρ) (tbl : List (Nat × List Nat)) (i : Nat) :
    List (Nat × List Nat) :=
  match tbl with
  | [] => [(i, [i])]
  | e :: rest =>
    if rows.get? e.1 = rows.get? i then (e.1, e.2 ++ [i]) :: rest
    else e :: addMulti rows rest i

/-- Fold `(idx, row)` pairs into a multi-key table, keeping the pairs whose
row passes `p` (the partition predicate on the row hash; `fun _ => true`
serially). -/
def insertMultiPairs (rows : List ρ) (p : ρ → Bool)
    (tbl : List (Nat × List Nat)) :
    List (Nat × ρ) → List (Nat × List Nat)
  | [] => tbl
  | q :: qs =>
    insertMultiPairs rows p
      (if p q.2 then addMulti rows tbl q.1 else tbl) qs

/-- `groupby_multiple_keys` (groupby/mod.rs:176-199): serial pass over every
row index in order. -/
def groupby_multiple_keys (rows : List ρ) : GroupTuples :=
  insertMultiPairs rows (fun _ => true) [] (withIdx 0 rows)

/-- `split_ca` / `split_df` (crate utils, not among the supplied sources).
Modelled from the spec: slice the input into `T` contiguous shards; the
first `T - 1` shards have `len / T` rows and the last takes the rest. -/
def splitChunksGo (c : Nat) : Nat → List α → List (List α)
  | 0, _ => []
  | 1, xs => [xs]
  | n + 2, xs => xs.take c :: splitChunksGo c (n + 1) (xs.drop c)

def split_ca (xs : List α) (n : Nat) : List (List α) :=
  splitChunksGo (xs.length / n) n xs

theorem splitChunksGo_flatten (c n : Nat) (xs : List α) (hn : 1 ≤ n) :
    (splitChunksGo c n xs).flatten = xs := by
  induction n generalizing xs with
  | zero => omega
  | succ m ih =>
    match m with
    | 0 => simp [splitChunksGo]
    | m + 1 =>
      simp only [splitChunksGo, List.flatten_cons]
      rw [ih (xs.drop c) (by omega), List.take_append_drop]

theorem split_ca_flatten (xs : List α) (n : Nat) (hn : 1 ≤ n) :
    (split_ca xs n).flatten = xs :=
  splitChunksGo_flatten _ n xs hn

theorem splitChunksGo_length (c n : Nat) (xs : List α) :
    (splitChunksGo c n xs).length = n := by
  induction n generalizing xs with
  | zero => rfl
  | succ m ih =>
    match m with
    | 0 => rfl
    | m + 1 =>
      simp only [splitChunksGo, List.length_cons]
      rw [ih (xs.drop c)]

theorem split_ca_length (xs : List α) (n : Nat) :
    (split_ca xs n).length = n :=
  splitChunksGo_length _ n xs

/-- The worker loop of `groupby_threaded_multiple_keys_flat`
(groupby/mod.rs:212-251): scan the hashes of every shard with a running
offset, keep the rows in this worker's partition, probe against the whole
key frame at the global index. -/
def workerScanMulti (rows : List ρ) (h : ρ → Nat) (t T : Nat)
    (tbl : List (Nat × List Nat)) :
    List (List ρ) → Nat → List (Nat × List Nat)
  | [], _ => tbl
  | s :: rest, off =>
    workerScanMulti rows h t T
      (insertMultiPairs rows (fun r => this_thread (h r) t T) tbl
        (withIdx off s))
      rest (off + s.length)

/-- `groupby_threaded_multiple_keys_flat` before the final flatten:
one group-tuples list per worker (groupby/mod.rs:201-255). -/
def groupby_threaded_multiple_keys (rows : List ρ) (h : ρ → Nat)
    (T : Nat) : List GroupTuples :=
  (List.range T).map fun t =>
    workerScanMulti rows h t T [] (split_ca rows T) 0

/-- `groupby_threaded_multiple_keys_flat` (groupby/mod.rs:201-255). -/
def groupby_threaded_multiple_keys_flat (rows : List ρ) (h : ρ → Nat)
    (T : Nat) : GroupTuples :=
  (groupby_threaded_multiple_keys rows h T).flatten

theorem workerScanMulti_eq_insertMultiPairs (rows : List ρ) (h : ρ → Nat)
    (t T : Nat) (tbl : List (Nat × List Nat)) (shards : List (List ρ))
    (off : Nat) :
    workerScanMulti rows h t T tbl shards off =
      insertMultiPairs rows (fun r => this_thread (h r) t T) tbl
        (withIdx off shards.flatten) := by
  induction shards generalizing tbl off with
  | nil => simp [workerScanMulti, insertMultiPairs, withIdx]
  | cons s rest ih =>
    simp only [workerScanMulti, List.flatten_cons, withIdx_append]
    rw [ih]
    have : ∀ a b, insertMultiPairs rows (fun r => this_thread (h r) t T)
        tbl (a ++ b)
        = insertMultiPairs rows (fun r => this_thread (h r) t T)
            (insertMultiPairs rows (fun r => this_thread (h r) t T) tbl a)
            b := by
      intro a b
      induction a generalizing tbl with
      | nil => simp [insertMultiPairs]
      | cons q qs iha => simp [insertMultiPairs, iha]
    rw [this]

/-! ### Correspondence between the multi-key and the single-key tables -/

/-- Invariant of a single-key table built over `rows`: the key of each
entry is the row at its first member index. -/
def TableRowInv (rows : List ρ) (stbl : Table ρ) : Prop :=
  ∀ e ∈ stbl, rows.get? e.2.1 = some e.1

theorem tableRowInv_addToTable {rows : List ρ} {stbl : Table ρ}
    (hinv : TableRowInv rows stbl) {k : ρ} {i : Nat}
    (hik : rows.get? i = some k) :
    TableRowInv rows (addToTable stbl k i) := by
  induction stbl with
  | nil =>
    intro e he
    simp only [addToTable, List.mem_singleton] at he
    subst he
    exact hik
  | cons e0 rest ih =>
    intro e he
    by_cases hk : k = e0.1
    · simp only [addToTable, if_pos hk, List.mem_cons] at he
      rcases he with he | he
      · subst he
        exact hinv e0 (List.mem_cons_self _ _)
      · exact hinv e (List.mem_cons_of_mem _ he)
    · simp only [addToTable, if_neg hk, List.mem_cons] at he
      rcases he with he | he
      · subst he
        exact hinv e (List.mem_cons_self _ _)
      · exact ih (fun x hx => hinv x (List.mem_cons_of_mem _ hx)) e he

theorem addMulti_eq_addToTable {rows : List ρ} {stbl : Table ρ}
    (hinv : TableRowInv rows stbl) {k : ρ} {i : Nat}
    (hik : rows.get? i = some k) :
    addMulti rows (stbl.map (·.2)) i = (addToTable stbl k i).map (·.2) := by
  induction stbl with
  | nil => simp [addMulti, addToTable]
  | cons e0 rest ih =>
    have he0 : rows.get? e0.2.1 = some e0.1 :=
      hinv e0 (List.mem_cons_self _ _)
    by_cases hk : k = e0.1
    · have hcond : rows.get? e0.2.1 = rows.get? i := by
        rw [he0, hik, hk]
      have h1 : addMulti rows (List.map (fun x => x.2) (e0 :: rest)) i
          = (e0.2.1, e0.2.2 ++ [i]) :: List.map (fun x => x.2) rest := by
        simp only [List.map_cons, addMulti, if_pos hcond]
      have h2 : addToTable (e0 :: rest) k i
          = (e0.1, (e0.2.1, e0.2.2 ++ [i])) :: rest := by
        simp only [addToTable, if_pos hk]
      rw [h1, h2, List.map_cons]
    · have hcond : ¬ rows.get? e0.2.1 = rows.get? i := by
        rw [he0, hik]
        intro hc
        exact hk (Option.some_injective _ hc).symm
      simp only [addMulti, addToTable, List.map_cons, if_neg hcond,
        if_neg hk, List.map_cons]
      rw [ih (fun x hx => hinv x (List.mem_cons_of_mem _ hx))]

theorem tableRowInv_insertPairs {rows : List ρ} {p : ρ → Bool}
    {stbl : Table ρ} (hinv : TableRowInv rows stbl)
    {ps : List (Nat × ρ)} (hps : ∀ q ∈ ps, rows.get? q.1 = some q.2) :
    TableRowInv rows (insertPairs p stbl ps) := by
  induction ps generalizing stbl with
  | nil => exact hinv
  | cons q qs ih =>
    simp only [insertPairs]
    apply ih
    · by_cases hp : p q.2
      · rw [if_pos hp]
        exact tableRowInv_addToTable hinv (hps q (List.mem_cons_self _ _))
      · rw [if_neg hp]
        exact hinv
    · exact fun x hx => hps x (List.mem_cons_of_mem _ hx)

theorem insertMultiPairs_eq_insertPairs {rows : List ρ} {p : ρ → Bool}
    {stbl : Table ρ} (hinv : TableRowInv rows stbl)
    {ps : List (Nat × ρ)} (hps : ∀ q ∈ ps, rows.get? q.1 = some q.2) :
    insertMultiPairs rows p (stbl.map (·.2)) ps
      = (insertPairs p stbl ps).map (·.2) := by
  induction ps generalizing stbl with
  | nil => rfl
  | cons q qs ih =>
    simp only [insertMultiPairs, insertPairs]
    by_cases hp : p q.2
    · rw [if_pos hp, if_pos hp,
        addMulti_eq_addToTable hinv (hps q (List.mem_cons_self _ _))]
      exact ih
        (tableRowInv_addToTable hinv (hps q (List.mem_cons_self _ _)))
        (fun x hx => hps x (List.mem_cons_of_mem _ hx))
    · rw [if_neg hp, if_neg hp]
      exact ih hinv (fun x hx => hps x (List.mem_cons_of_mem _ hx))

theorem mem_withIdx {q : Nat × ρ} :
    ∀ {i0 : Nat} {xs : List ρ}, q ∈ withIdx i0 xs →
      ∃ d, q.1 = i0 + d ∧ xs.get? d = some q.2 := by
  intro i0 xs
  induction xs generalizing i0 with
  | nil => intro hq; simp [withIdx] at hq
  | cons k ks ih =>
    intro hq
    simp only [withIdx, List.mem_cons] at hq
    rcases hq with hq | hq
    · exact ⟨0, by simp [hq]⟩
    · obtain ⟨d, hd1, hd2⟩ := ih hq
      exact ⟨d + 1, by omega, by simpa using hd2⟩

theorem withIdx_zero_get (rows : List ρ) :
    ∀ q ∈ withIdx 0 rows, rows.get? q.1 = some q.2 := by
  intro q hq
  obtain ⟨d, hd1, hd2⟩ := mem_withIdx hq
  rw [hd1, Nat.zero_add]
  exact hd2

/-- The serial multiple-key group discovery coincides with the serial
single-key discovery applied to the whole rows. -/
theorem groupby_multiple_keys_eq (rows : List ρ) :
    groupby_multiple_keys rows = groupby rows := by
  rw [groupby_multiple_keys, groupby]
  have := @insertMultiPairs_eq_insertPairs _ _ rows (fun _ => true) []
    (by intro e he; cases he) (withIdx 0 rows) (withIdx_zero_get rows)
  simpa using this

/-- Each multi-key worker coincides with the corresponding single-key
worker over the same shards. -/
theorem groupby_threaded_multiple_keys_eq (rows : List ρ) (h : ρ → Nat)
    (T : Nat) (hT : 1 ≤ T) :
    groupby_threaded_multiple_keys rows h T
      = groupby_threaded h (split_ca rows T) := by
  rw [groupby_threaded_multiple_keys, groupby_threaded, split_ca_length]
  apply List.map_congr_left
  intro t _
  rw [workerScanMulti_eq_insertMultiPairs, workerScan_eq_insertPairs,
    split_ca_flatten _ _ hT]
  have := @insertMultiPairs_eq_insertPairs _ _ rows
    (fun r => this_thread (h r) t T) []
    (by intro e he; cases he) (withIdx 0 rows) (withIdx_zero_get rows)
  simpa using this

theorem count_range (n j : Nat) :
    (List.range n).count j = if j < n then 1 else 0 := by
  by_cases hj : j < n
  · rw [if_pos hj]
    exact List.count_eq_one_of_mem (List.nodup_range n)
      (List.mem_range.mpr hj)
  · rw [if_neg hj]
    exact List.count_eq_zero_of_not_mem (fun hm => hj (List.mem_range.mp hm))

theorem countP_mem_worker (h : κ → Nat) (shards : List (List κ))
    (hT1 : 1 ≤ shards.length)
    (hw : ∀ k ∈ shards.flatten, h k + shards.length ≤ U64)
    (j : Nat) (hj : j < shards.flatten.length) :
    (groupby_threaded h shards).countP
      (fun gt => decide (j ∈ tuplesConcat gt)) = 1 := by
  rw [groupby_threaded, List.countP_map]
  obtain ⟨k, hk⟩ : ∃ k, shards.flatten.get? j = some k :=
    ⟨shards.flatten.get ⟨j, hj⟩, List.get?_eq_get hj⟩
  have hcongr : ∀ t ∈ List.range shards.length,
      (((fun gt => decide (j ∈ tuplesConcat gt)) ∘ fun t =>
        (workerScan h t shards.length [] shards 0).map (·.2)) t = true
        ↔ this_thread (h k) t shards.length = true) := by
    intro t _
    simp only [Function.comp_apply, decide_eq_true_eq]
    rw [tuplesConcat_of_table]
    have hcnt : (membersConcat
        (workerScan h t shards.length [] shards 0)).count j
        = if this_thread (h k) t shards.length = true then 1 else 0 := by
      rw [count_worker h shards t j, hk]
    constructor
    · intro hmem
      have hpos : 0 < (membersConcat
          (workerScan h t shards.length [] shards 0)).count j :=
        List.count_pos_iff.mpr hmem
      by_contra hpred
      simp only [Bool.not_eq_true] at hpred
      rw [hcnt, hpred] at hpos
      simp at hpos
    · intro hpred
      apply List.count_pos_iff.mp
      rw [hcnt, hpred]
      simp
  rw [List.countP_congr hcongr]
  exact countP_this_thread (h k) shards.length hT1
    (hw k (List.get?_mem hk))

/-- **C1, amended** (partition exhaustiveness below the wrap zone).  For
every key column (and every key frame of rows) whose hash values stay at
most `2^64 - T` — so the wrapping `u64` addition of the partition
predicate cannot overflow for any worker offset — the group tuples
produced by group discovery — serial single-key, sharded-parallel
single-key, serial multi-key, and sharded-parallel multi-key —
concatenate to a permutation of `[0, number of rows)`: every row index
appears in exactly one group's member list.  The serial conjuncts need no
hash hypothesis.  The sharding is arbitrary (`shards.flatten = keys` is
exactly what `split_ca` guarantees).  As frozen the claim also covers
hashes in the wrap zone, where the parallel path can insert a row into
two workers' tables: see `c1_counterexample`. -/
theorem c1_partition_exhaustiveness (keys : List κ) (rows : List ρ)
    (h : κ → Nat) (hr : ρ → Nat) (shards : List (List κ)) (T : Nat)
    (hsh : shards.flatten = keys) (hT1 : 1 ≤ shards.length)
    (hT : 1 ≤ T)
    (hw : ∀ k ∈ keys, h k + shards.length ≤ U64)
    (hwr : ∀ r ∈ rows, hr r + T ≤ U64) :
    (tuplesConcat (groupby keys)).Perm (List.range keys.length)
    ∧ (tuplesConcat (groupby_threaded_flat h shards)).Perm
        (List.range keys.length)
    ∧ (tuplesConcat (groupby_multiple_keys rows)).Perm
        (List.range rows.length)
    ∧ (tuplesConcat (groupby_threaded_multiple_keys_flat rows hr T)).Perm
        (List.range rows.length) := by
  refine ⟨?_, ?_, ?_, ?_⟩
  · rw [List.perm_iff_count]
    intro j
    rw [count_groupby, count_range]
  · rw [List.perm_iff_count]
    intro j
    rw [count_groupby_threaded_flat h shards hT1
      (by rw [hsh]; exact hw), count_range, hsh]
  · rw [groupby_multiple_keys_eq, List.perm_iff_count]
    intro j
    rw [count_groupby, count_range]
  · rw [groupby_threaded_multiple_keys_flat,
      groupby_threaded_multiple_keys_eq rows hr T hT, List.perm_iff_count]
    intro j
    rw [← groupby_threaded_flat,
      count_groupby_threaded_flat hr _ (by rw [split_ca_length]; omega)
        (by rw [split_ca_flatten _ _ hT, split_ca_length]; exact hwr),
      count_range, split_ca_flatten _ _ hT]

/-- Witness for C1 at a concrete instance. -/
theorem c1_partition_exhaustiveness_witness :
    (tuplesConcat (groupby ([3, 1, 3] : List Nat))).Perm (List.range 3)
    ∧ (tuplesConcat (groupby_threaded_flat id [[3], [1, 3]])).Perm
        (List.range 3)
    ∧ (tuplesConcat (groupby_multiple_keys ([5, 2, 2] : List Nat))).Perm
        (List.range 3)
    ∧ (tuplesConcat
        (groupby_threaded_multiple_keys_flat ([5, 2, 2] : List Nat) id 2)).Perm
        (List.range 3) :=
  c1_partition_exhaustiveness [3, 1, 3] [5, 2, 2] id id [[3], [1, 3]] 2
    (by decide) (by decide) (by decide) (by decide) (by decide)

/-- **C1, counterexample.**  The partition predicate adds in wrapping
`u64` arithmetic, so a single row whose key hashes to `2^64 - 1`, grouped
with 3 shards (3 workers), is accepted by worker 0
(`(2^64 - 1) % 3 = 0`, as `2^64 ≡ 1 (mod 3)`) *and* by worker 1
(`((2^64 - 1) + 1) % 2^64 = 0`): its row index appears twice in the
concatenated member lists of the sharded-parallel path, which therefore
is not a permutation of `[0, 1)`, refuting the claim as frozen. -/
theorem c1_counterexample :
    (tuplesConcat (groupby_threaded_flat (fun _ : Nat => 2 ^ 64 - 1)
      [[0], [], []])).count 0 = 2 := by
  decide

/-- **C3, amended** (partition predicate totality below the wrap zone).
For every hash value `h0` and worker count `T ≥ 1` with `h0 + T ≤ 2^64` —
so the wrapping `u64` addition `h0 + t` cannot overflow for any worker
index `t < T` — exactly one worker index satisfies `(h0 + t) % T == 0`;
consequently on the sharded-parallel grouping path — single-key and
multi-key — every row whose key hash obeys that bound is inserted into
exactly one worker's hash table.  As frozen the claim covers every 64-bit
hash; in the wrap zone two workers can accept the same hash when the
worker count does not divide `2^64`: see `c3_counterexample`. -/
theorem c3_partition_predicate_totality (h0 T : Nat) (hT : 1 ≤ T)
    (hw0 : h0 + T ≤ U64)
    (h : κ → Nat) (shards : List (List κ)) (hsh : 1 ≤ shards.length)
    (hw : ∀ k ∈ shards.flatten, h k + shards.length ≤ U64)
    (rows : List ρ) (hr : ρ → Nat)
    (hwr : ∀ r ∈ rows, hr r + T ≤ U64) (j : Nat)
    (hj : j < shards.flatten.length) (j2 : Nat) (hj2 : j2 < rows.length) :
    (∃! t, t < T ∧ this_thread h0 t T = true)
    ∧ (groupby_threaded h shards).countP
        (fun gt => decide (j ∈ tuplesConcat gt)) = 1
    ∧ (groupby_threaded_multiple_keys rows hr T).countP
        (fun gt => decide (j2 ∈ tuplesConcat gt)) = 1 := by
  refine ⟨this_thread_exists_unique h0 T hT hw0, ?_, ?_⟩
  · exact countP_mem_worker h shards hsh hw j hj
  · rw [groupby_threaded_multiple_keys_eq rows hr T hT]
    exact countP_mem_worker hr (split_ca rows T)
      (by rw [split_ca_length]; omega)
      (by rw [split_ca_flatten _ _ hT, split_ca_length]; exact hwr) j2
      (by rw [split_ca_flatten _ _ hT]; exact hj2)

/-- Witness for the amended C3 at a concrete instance. -/
theorem c3_partition_predicate_totality_witness :
    (∃! t, t < 3 ∧ this_thread 7 t 3 = true)
    ∧ (groupby_threaded id [[1], [2], [0, 1]]).countP
        (fun gt => decide (2 ∈ tuplesConcat gt)) = 1
    ∧ (groupby_threaded_multiple_keys ([5, 5] : List Nat) id 3).countP
        (fun gt => decide (1 ∈ tuplesConcat gt)) = 1 :=
  c3_partition_predicate_totality 7 3 (by decide) (by decide) id
    [[1], [2], [0, 1]] (by decide) (by decide) [5, 5] id (by decide)
    2 (by decide) 1 (by decide)

/-- **C3, counterexample.**  At hash `2^64 - 1` with 3 workers the
wrapping `u64` addition makes the partition predicate hold for worker 0
(`(2^64 - 1) % 3 = 0`, as `2^64 ≡ 1 (mod 3)`) and for worker 1
(`((2^64 - 1) + 1) % 2^64 = 0`), two distinct worker indices; and on the
sharded-parallel path a row with that hash is inserted into two workers'
hash tables — not exactly one — refuting the claim as frozen. -/
theorem c3_counterexample :
    this_thread (2 ^ 64 - 1) 0 3 = true
    ∧ this_thread (2 ^ 64 - 1) 1 3 = true
    ∧ (groupby_threaded (fun _ : Nat => 2 ^ 64 - 1) [[0], [], []]).countP
        (fun gt => decide (0 ∈ tuplesConcat gt)) = 2 := by
  decide

/-! ### The `group_tuples` dispatch and `DataFrame::groupby` -/

/-- `group_multithreaded` (groupby/mod.rs:267-270): the sharded path is
used only beyond 1000 rows. -/
def group_multithreaded (keys : List κ) : Bool :=
  decide (keys.length > 1000)

/-- `group_tuples` for a single key column (groupby/mod.rs:299-348 and the
`group_tuples!` macro at groupby/mod.rs:272-297): the sharded-parallel path
when `multithreaded` is requested and the column is long enough — splitting
into `n_threads = num_cpus::get()` contiguous shards — and the serial path
otherwise.  The null-free versus nullable iterators are absorbed by the key
type `κ` (instantiate `κ := Option γ` for a nullable column); float keys
are their raw bit patterns (`v.to_bits`, groupby/mod.rs:369-408).
`nCpus` is the machine's CPU count, an environment parameter. -/
def group_tuples (keys : List κ) (multithreaded : Bool) (h : κ → Nat)
    (nCpus : Nat) : GroupTuples :=
  if multithreaded && group_multithreaded keys then
    groupby_threaded_flat h (split_ca keys nCpus)
  else groupby keys

/-- `DataFrame::groupby` (groupby/mod.rs:460-463) restricted to a single
key column: it calls `groupby_with_series(keys, true)`, i.e. the
`multithreaded = true` dispatch, and does *not* sort the groups. -/
def dfGroupby (keys : List κ) (h : κ → Nat) (nCpus : Nat) : GroupTuples :=
  group_tuples keys true h nCpus

/-- Lexicographic comparison of member vectors (`Ord for Vec<u32>`),
used by `Vec::sort` on `(u32, Vec<u32>)` tuples. -/
def listLe : List Nat → List Nat → Bool
  | [], _ => true
  | _ :: _, [] => false
  | a :: as_, b :: bs => if a = b then listLe as_ bs else decide (a < b)

/-- Lexicographic comparison of group entries (`Ord for (u32, Vec<u32>)`):
first indices first, member vectors break ties. -/
def tupLe (x y : Nat × List Nat) : Bool :=
  if x.1 = y.1 then listLe x.2 y.2 else decide (x.1 < y.1)

/-- Insertion step of the sorting model of `Vec::sort`. -/
def insGroup (x : Nat × List Nat) : GroupTuples → GroupTuples
  | [] => [x]
  | y :: ys => if tupLe x y then x :: y :: ys else y :: insGroup x ys

/-- `self.groups.sort()` (groupby/mod.rs:469) modelled as insertion sort
in the total lexicographic order `tupLe`; in a total order the sorted
permutation is unique up to equal elements, so this coincides with
`Vec::sort`. -/
def sortGroups (l : GroupTuples) : GroupTuples :=
  l.foldr insGroup []

/-- `DataFrame::groupby_stable` (groupby/mod.rs:467-471): `groupby`, then
`groups.sort()`. -/
def dfGroupbyStable (keys : List κ) (h : κ → Nat) (nCpus : Nat) :
    GroupTuples :=
  sortGroups (dfGroupby keys h nCpus)

theorem listLe_total (a b : List Nat) :
    listLe a b = true ∨ listLe b a = true := by
  induction a generalizing b with
  | nil => left; rfl
  | cons x xs ih =>
    cases b with
    | nil => right; rfl
    | cons y ys =>
      by_cases hxy : x = y
      · subst hxy
        simp only [listLe, if_pos rfl]
        exact ih ys
      · simp only [listLe, if_neg hxy, if_neg (Ne.symm hxy)]
        rcases Nat.lt_or_ge x y with hlt | hge
        · left; simpa using hlt
        · right
          have : y < x := by omega
          simpa using this

theorem listLe_trans (a b c : List Nat) (hab : listLe a b = true)
    (hbc : listLe b c = true) : listLe a c = true := by
  induction a generalizing b c with
  | nil => rfl
  | cons x xs ih =>
    cases b with
    | nil => simp [listLe] at hab
    | cons y ys =>
      cases c with
      | nil => simp [listLe] at hbc
      | cons z zs =>
        by_cases hxy : x = y <;> by_cases hyz : y = z
        · subst hxy; subst hyz
          simp only [listLe, if_pos rfl] at *
          exact ih ys zs hab hbc
        · subst hxy
          simp only [listLe, if_pos rfl, if_neg hyz] at *
          exact hbc
        · subst hyz
          simp only [listLe, if_neg hxy] at *
          exact hab
        · simp only [listLe, if_neg hxy, if_neg hyz] at hab hbc
          have hxz : x < z := by
            have h1 : x < y := by simpa using hab
            have h2 : y < z := by simpa using hbc
            omega
          have hne : x ≠ z := by omega
          simp only [listLe, if_neg hne]
          simpa using hxz

theorem tupLe_total (x y : Nat × List Nat) :
    tupLe x y = true ∨ tupLe y x = true := by
  by_cases hxy : x.1 = y.1
  · simp only [tupLe, if_pos hxy, if_pos hxy.symm]
    exact listLe_total x.2 y.2
  · simp only [tupLe, if_neg hxy, if_neg (Ne.symm hxy)]
    rcases Nat.lt_or_ge x.1 y.1 with hlt | hge
    · left; simpa using hlt
    · right
      have : y.1 < x.1 := by omega
      simpa using this

theorem tupLe_trans (x y z : Nat × List Nat) (hxy : tupLe x y = true)
    (hyz : tupLe y z = true) : tupLe x z = true := by
  by_cases h1 : x.1 = y.1 <;> by_cases h2 : y.1 = z.1
  · have h3 : x.1 = z.1 := h1.trans h2
    simp only [tupLe, if_pos h1, if_pos h2, if_pos h3] at *
    exact listLe_trans _ _ _ hxy hyz
  · have h3 : x.1 ≠ z.1 := by rw [h1]; exact h2
    simp only [tupLe, if_pos h1, if_neg h2, if_neg h3] at *
    rw [h1]
    exact hyz
  · have h3 : x.1 ≠ z.1 := by rw [← h2]; exact h1
    simp only [tupLe, if_neg h1, if_pos h2, if_neg h3] at *
    rw [← h2]
    exact hxy
  · simp only [tupLe, if_neg h1, if_neg h2] at hxy hyz
    have hlt : x.1 < z.1 := by
      have a1 : x.1 < y.1 := by simpa using hxy
      have a2 : y.1 < z.1 := by simpa using hyz
      omega
    have h3 : x.1 ≠ z.1 := by omega
    simp only [tupLe, if_neg h3]
    simpa using hlt

theorem insGroup_perm (x : Nat × List Nat) (l : GroupTuples) :
    (insGroup x l).Perm (x :: l) := by
  induction l with
  | nil => exact List.Perm.refl _
  | cons y ys ih =>
    by_cases hxy : tupLe x y
    · rw [insGroup, if_pos hxy]
    · rw [insGroup, if_neg hxy]
      exact List.Perm.trans (List.Perm.cons y ih) (List.Perm.swap x y ys)

theorem insGroup_pairwise (x : Nat × List Nat) (l : GroupTuples)
    (hl : l.Pairwise (fun a b => tupLe a b = true)) :
    (insGroup x l).Pairwise (fun a b => tupLe a b = true) := by
  induction l with
  | nil => simp [insGroup]
  | cons y ys ih =>
    rw [List.pairwise_cons] at hl
    by_cases hxy : tupLe x y
    · rw [insGroup, if_pos hxy]
      refine List.Pairwise.cons ?_ (List.Pairwise.cons hl.1 hl.2)
      intro z hz
      rcases List.mem_cons.mp hz with hz | hz
      · subst hz; exact hxy
      · exact tupLe_trans x y z hxy (hl.1 z hz)
    · rw [insGroup, if_neg hxy]
      refine List.Pairwise.cons ?_ (ih hl.2)
      intro z hz
      have hz2 : z ∈ x :: ys := (insGroup_perm x ys).mem_iff.mp hz
      rcases List.mem_cons.mp hz2 with hz2 | hz2
      · rcases tupLe_total x y with ht | ht
        · exact absurd ht hxy
        · rw [hz2]
          exact ht
      · exact hl.1 z hz2

theorem sortGroups_perm (l : GroupTuples) : (sortGroups l).Perm l := by
  induction l with
  | nil => exact List.Perm.refl _
  | cons x xs ih =>
    exact List.Perm.trans (insGroup_perm x (sortGroups xs))
      (List.Perm.cons x ih)

theorem sortGroups_pairwise (l : GroupTuples) :
    (sortGroups l).Pairwise (fun a b => tupLe a b = true) := by
  induction l with
  | nil => simp [sortGroups]
  | cons x xs ih => exact insGroup_pairwise x (sortGroups xs) ih

/-- **C6, amended.**  `DataFrame::groupby` runs the `multithreaded = true`
path and leaves the group entries in table order, which is *not* sorted in
general (see the counterexample); the stable-ordered path is the separate
method `DataFrame::groupby_stable`, which sorts the entries of `groupby`:
its result is a permutation of `groupby`'s entries ordered by ascending
`first_row_index`. -/
theorem c6_groupby_stable_sorted (keys : List κ) (h : κ → Nat)
    (nCpus : Nat) :
    (dfGroupbyStable keys h nCpus).Pairwise (fun a b => a.1 ≤ b.1)
    ∧ (dfGroupbyStable keys h nCpus).Perm (dfGroupby keys h nCpus) := by
  constructor
  · apply List.Pairwise.imp ?_ (sortGroups_pairwise (dfGroupby keys h nCpus))
    intro a b hab
    by_cases h1 : a.1 = b.1
    · omega
    · rw [tupLe, if_neg h1] at hab
      have : a.1 < b.1 := by simpa using hab
      omega
  · exact sortGroups_perm _

/-- The alternating 0/1 key column of 1002 rows used to refute C6 as
stated. -/
def c6Keys : List Nat := (List.range 1002).map (fun i => (i + 1) % 2)

/-- **C6, counterexample.**  On a machine with 2 CPUs and with the raw key
values as hashes, grouping the 1002-row alternating key column by
`DataFrame::groupby` yields entries with first indices `[1, 0]` — not
sorted by ascending first index, hence not equal to the stable-ordered
result.  (The model fixes the hash-map iteration order to insertion order,
which is one realizable behaviour of the seed-randomized table; the claimed
equivalence must hold for every realizable order to be an invariant.) -/
theorem c6_counterexample :
    dfGroupby c6Keys id 2 ≠ dfGroupbyStable c6Keys id 2 := by
  decide

/-! ### Full characterization of the tables: entry lookup -/

/-- Association lookup in a group table. -/
def entryFor (tbl : Table κ) (k : κ) : Option (Nat × List Nat) :=
  match tbl with
  | [] => none
  | e :: rest => if e.1 = k then some e.2 else entryFor rest k

/-- Effect of inserting one index on an optional entry. -/
def pushIdx (o : Option (Nat × List Nat)) (i : Nat) : Option (Nat × List Nat) :=
  match o with
  | none => some (i, [i])
  | some fm => some (fm.1, fm.2 ++ [i])

/-- Effect of inserting a list of indices on an optional entry. -/
def mergeIdxs (o : Option (Nat × List Nat)) : List Nat → Option (Nat × List Nat)
  | [] => o
  | i :: is_ => mergeIdxs (pushIdx o i) is_

/-- The indices among `ps` whose key equals `k` and passes `p`. -/
def idxsOf (p : κ → Bool) (k : κ) (ps : List (Nat × κ)) : List Nat :=
  (ps.filter (fun q => p q.2 && decide (q.2 = k))).map (·.1)

theorem entryFor_addToTable (tbl : Table κ) (k0 k : κ) (i : Nat) :
    entryFor (addToTable tbl k0 i) k =
      if k = k0 then pushIdx (entryFor tbl k) i else entryFor tbl k := by
  induction tbl with
  | nil =>
    by_cases hk : k = k0
    · simp [addToTable, entryFor, hk, pushIdx]
    · have hk2 : ¬ k0 = k := fun h => hk h.symm
      simp [addToTable, entryFor, hk, hk2]
  | cons e rest ih =>
    by_cases hk0 : k0 = e.1
    · have haddf : addToTable (e :: rest) k0 i
          = (e.1, (e.2.1, e.2.2 ++ [i])) :: rest := by
        simp [addToTable, hk0]
      rw [haddf]
      by_cases hek : e.1 = k
      · have hkk0 : k = k0 := by rw [← hek, hk0]
        simp only [entryFor, if_pos hek, if_pos hkk0, pushIdx]
      · have hkk0 : ¬ k = k0 := fun h => hek (hk0.symm.trans h.symm)
        simp only [entryFor, if_neg hek, if_neg hkk0]
    · have haddf : addToTable (e :: rest) k0 i
          = e :: addToTable rest k0 i := by
        simp [addToTable, hk0]
      rw [haddf]
      by_cases hek : e.1 = k
      · have hkk0 : ¬ k = k0 := fun h => hk0 (h.symm.trans hek.symm)
        simp only [entryFor, if_pos hek, if_neg hkk0]
      · simp only [entryFor, if_neg hek, ih]

theorem mergeIdxs_some (f : Nat) (ms is_ : List Nat) :
    mergeIdxs (some (f, ms)) is_ = some (f, ms ++ is_) := by
  induction is_ generalizing ms with
  | nil => simp [mergeIdxs]
  | cons i is2 ih =>
    simp only [mergeIdxs, pushIdx]
    rw [ih]
    simp

theorem entryFor_insertPairs (p : κ → Bool) (tbl : Table κ)
    (ps : List (Nat × κ)) (k : κ) :
    entryFor (insertPairs p tbl ps) k =
      mergeIdxs (entryFor tbl k) (idxsOf p k ps) := by
  induction ps generalizing tbl with
  | nil => simp [insertPairs, idxsOf, mergeIdxs]
  | cons q qs ih =>
    by_cases hp : p q.2
    · simp only [insertPairs, if_pos hp]
      rw [ih, entryFor_addToTable]
      by_cases hk : q.2 = k
      · rw [if_pos (Eq.symm hk)]
        have hpk : p k = true := by rw [← hk]; exact hp
        have hidx : idxsOf p k (q :: qs) = q.1 :: idxsOf p k qs := by
          simp [idxsOf, List.filter_cons, hp, hk, hpk]
        rw [hidx]
        rfl
      · rw [if_neg (fun h => hk (Eq.symm h))]
        have hidx : idxsOf p k (q :: qs) = idxsOf p k qs := by
          simp [idxsOf, List.filter_cons, hp, hk]
        rw [hidx]
    · simp only [insertPairs, if_neg hp]
      rw [ih]
      have hidx : idxsOf p k (q :: qs) = idxsOf p k qs := by
        simp [idxsOf, List.filter_cons, hp]
      rw [hidx]

/-! ### Key sets of the tables -/

def keysOf (tbl : Table κ) : List κ := tbl.map (·.1)

theorem keysOf_addToTable (tbl : Table κ) (k : κ) (i : Nat) :
    keysOf (addToTable tbl k i) =
      if k ∈ keysOf tbl then keysOf tbl else keysOf tbl ++ [k] := by
  induction tbl with
  | nil => simp [addToTable, keysOf]
  | cons e rest ih =>
    by_cases hk : k = e.1
    · simp [addToTable, hk, keysOf]
    · have haddf : addToTable (e :: rest) k i
          = e :: addToTable rest k i := by
        simp [addToTable, hk]
      rw [haddf]
      have hex : keysOf (e :: rest) = e.1 :: keysOf rest := rfl
      have hex2 : keysOf (e :: addToTable rest k i)
          = e.1 :: keysOf (addToTable rest k i) := rfl
      rw [hex2, hex, ih]
      by_cases hmem : k ∈ keysOf rest
      · rw [if_pos hmem, if_pos (List.mem_cons.mpr (Or.inr hmem))]
      · rw [if_neg hmem, if_neg ?_]
        · rfl
        · intro hc
          rcases List.mem_cons.mp hc with hc | hc
          · exact hk hc
          · exact hmem hc

theorem nodup_keysOf_addToTable {tbl : Table κ} (hn : (keysOf tbl).Nodup)
    (k : κ) (i : Nat) : (keysOf (addToTable tbl k i)).Nodup := by
  rw [keysOf_addToTable]
  by_cases hmem : k ∈ keysOf tbl
  · rw [if_pos hmem]; exact hn
  · rw [if_neg hmem]
    rw [List.nodup_append]
    exact ⟨hn, List.nodup_singleton k, by simpa using hmem⟩

theorem nodup_keysOf_insertPairs (p : κ → Bool) {tbl : Table κ}
    (hn : (keysOf tbl).Nodup) (ps : List (Nat × κ)) :
    (keysOf (insertPairs p tbl ps)).Nodup := by
  induction ps generalizing tbl with
  | nil => exact hn
  | cons q qs ih =>
    simp only [insertPairs]
    by_cases hp : p q.2
    · rw [if_pos hp]
      exact ih (nodup_keysOf_addToTable hn q.2 q.1)
    · rw [if_neg hp]
      exact ih hn

/-- With no duplicate keys, an entry occurs in the table exactly when the
lookup at its key returns its payload. -/
theorem entryFor_eq_none_iff (tbl : Table κ) (k : κ) :
    entryFor tbl k = none ↔ k ∉ keysOf tbl := by
  induction tbl with
  | nil => simp [entryFor, keysOf]
  | cons e rest ih =>
    by_cases hek : e.1 = k
    · simp [entryFor, hek, keysOf]
    · have hke : ¬ k = e.1 := fun hc => hek hc.symm
      simp only [entryFor, if_neg hek, keysOf, List.map_cons,
        List.mem_cons, ih, keysOf]
      constructor
      · intro hnm hc
        rcases hc with hc | hc
        · exact hke hc
        · exact hnm hc
      · intro hnm hc
        exact hnm (Or.inr hc)

theorem entryFor_extract {tbl : Table κ} {k : κ} {v : Nat × List Nat}
    (he : entryFor tbl k = some v) :
    ∃ a b, tbl = a ++ (k, v) :: b ∧ k ∉ keysOf a := by
  induction tbl with
  | nil => simp [entryFor] at he
  | cons e rest ih =>
    by_cases hek : e.1 = k
    · rw [entryFor, if_pos hek] at he
      have hv : e.2 = v := Option.some_injective _ he
      refine ⟨[], rest, ?_, by simp [keysOf]⟩
      rw [List.nil_append, ← hek, ← hv]
    · rw [entryFor, if_neg hek] at he
      obtain ⟨a, b, hab, hka⟩ := ih he
      refine ⟨e :: a, b, by rw [hab]; rfl, ?_⟩
      intro hc
      rw [keysOf, List.map_cons, List.mem_cons] at hc
      rcases hc with hc | hc
      · exact hek hc.symm
      · exact hka hc

theorem entryFor_append (a b : Table κ) (k : κ) :
    entryFor (a ++ b) k =
      match entryFor a k with
      | some v => some v
      | none => entryFor b k := by
  induction a with
  | nil => simp [entryFor]
  | cons e rest ih =>
    by_cases hek : e.1 = k
    · simp [entryFor, hek]
    · simp only [List.cons_append, entryFor, if_neg hek]
      exact ih

/-- Two tables with duplicate-free key sets and identical lookups are
permutations of each other. -/
theorem perm_of_entryFor_eq (l1 : Table κ) :
    ∀ l2 : Table κ, (keysOf l1).Nodup → (keysOf l2).Nodup →
      (∀ k, entryFor l1 k = entryFor l2 k) → l1.Perm l2 := by
  induction l1 with
  | nil =>
    intro l2 _ _ he
    cases l2 with
    | nil => exact List.Perm.refl _
    | cons e rest =>
      have h1 := he e.1
      simp [entryFor] at h1
  | cons e rest ih =>
    intro l2 hn1 hn2 he
    have hself : entryFor (e :: rest) e.1 = some e.2 := by
      simp [entryFor]
    have h2 : entryFor l2 e.1 = some e.2 := by rw [← he e.1, hself]
    obtain ⟨a, b, hab, hka⟩ := entryFor_extract h2
    have hn1' : e.1 ∉ keysOf rest ∧ (keysOf rest).Nodup := by
      rw [keysOf, List.map_cons, List.nodup_cons] at hn1
      exact hn1
    have hkb : e.1 ∉ keysOf b := by
      rw [hab, keysOf, List.map_append, List.map_cons] at hn2
      have := (List.nodup_append.mp hn2).2.1
      rw [List.nodup_cons] at this
      exact this.1
    have hab2 : (keysOf (a ++ b)).Nodup := by
      have hsub : (a ++ b).Sublist (a ++ (e.1, e.2) :: b) :=
        List.Sublist.append_left (List.sublist_cons_self _ _) a
      have hsub2 : (keysOf (a ++ b)).Sublist (keysOf (a ++ (e.1, e.2) :: b)) :=
        List.Sublist.map _ hsub
      rw [hab] at hn2
      exact List.Nodup.sublist hsub2 hn2
    have hrest : rest.Perm (a ++ b) := by
      apply ih (a ++ b) hn1'.2 hab2
      intro k
      by_cases hk : k = e.1
      · rw [(entryFor_eq_none_iff rest k).mpr (by rw [hk]; exact hn1'.1)]
        rw [entryFor_append,
          (entryFor_eq_none_iff a k).mpr (by rw [hk]; exact hka),
          (entryFor_eq_none_iff b k).mpr (by rw [hk]; exact hkb)]
      · have hk2 := he k
        rw [entryFor, if_neg (fun hc => hk hc.symm)] at hk2
        rw [hk2, hab, entryFor_append, entryFor_append]
        cases ha : entryFor a k with
        | some v => rfl
        | none =>
          simp only
          rw [entryFor, if_neg (fun hc => hk hc.symm)]
    have hperm : (e :: rest).Perm (e :: (a ++ b)) := List.Perm.cons e hrest
    rw [hab]
    refine hperm.trans ?_
    have : (e.1, e.2) = e := rfl
    rw [this]
    exact List.perm_middle.symm

/-! ### Serial table versus the union of the worker tables -/

/-- The serial hash table over a key column (groupby/mod.rs:26-39). -/
def serialTable (keys : List κ) : Table κ :=
  insertPairs (fun _ => true) [] (withIdx 0 keys)

/-- Worker `t`'s hash table on the sharded-parallel path. -/
def workerTable (h : κ → Nat) (shards : List (List κ)) (t : Nat) : Table κ :=
  workerScan h t shards.length [] shards 0

theorem groupby_eq_serialTable (keys : List κ) :
    groupby keys = (serialTable keys).map (·.2) := rfl

theorem entryFor_workerTable (h : κ → Nat) (shards : List (List κ))
    (t : Nat) (k : κ) :
    entryFor (workerTable h shards t) k =
      if this_thread (h k) t shards.length then
        entryFor (serialTable shards.flatten) k
      else none := by
  rw [workerTable, workerScan_eq_insertPairs, entryFor_insertPairs,
    serialTable, entryFor_insertPairs]
  simp only [entryFor]
  have hidx : idxsOf (fun k => this_thread (h k) t shards.length) k
      (withIdx 0 shards.flatten)
      = if this_thread (h k) t shards.length then
          idxsOf (fun _ => true) k (withIdx 0 shards.flatten)
        else [] := by
    by_cases hpred : this_thread (h k) t shards.length
    · rw [if_pos hpred]
      unfold idxsOf
      congr 1
      apply List.filter_congr
      intro q _
      by_cases hqk : q.2 = k
      · simp [hqk, hpred]
      · simp [hqk]
    · rw [if_neg hpred]
      unfold idxsOf
      have : (withIdx 0 shards.flatten).filter
          (fun q => (fun k => this_thread (h k) t shards.length) q.2
            && decide (q.2 = k)) = [] := by
        apply List.filter_eq_nil_iff.mpr
        intro q _
        by_cases hqk : q.2 = k
        · simp [hqk, hpred]
        · simp [hqk]
      rw [this]
      rfl
  rw [hidx]
  by_cases hpred : this_thread (h k) t shards.length
  · rw [if_pos hpred, if_pos hpred]
  · rw [if_neg hpred, if_neg hpred]
    rfl

theorem nodup_keysOf_serialTable (keys : List κ) :
    (keysOf (serialTable keys)).Nodup :=
  nodup_keysOf_insertPairs _ (by simp [keysOf]) _

theorem nodup_keysOf_workerTable (h : κ → Nat) (shards : List (List κ))
    (t : Nat) : (keysOf (workerTable h shards t)).Nodup := by
  rw [workerTable, workerScan_eq_insertPairs]
  exact nodup_keysOf_insertPairs _ (by simp [keysOf]) _

theorem keysOf_append (a b : Table κ) :
    keysOf (a ++ b) = keysOf a ++ keysOf b := by
  simp [keysOf]

theorem mem_keysOf_iff (tbl : Table κ) (k : κ) :
    k ∈ keysOf tbl ↔ ¬ entryFor tbl k = none := by
  constructor
  · intro hm hc
    exact (entryFor_eq_none_iff _ _).mp hc hm
  · intro hne
    by_contra hnm
    exact hne ((entryFor_eq_none_iff _ _).mpr hnm)

theorem mem_keysOf_flatten {L : List (Table κ)} {x : κ} :
    x ∈ keysOf L.flatten ↔ ∃ tbl ∈ L, x ∈ keysOf tbl := by
  induction L with
  | nil => simp [keysOf]
  | cons tbl rest ih =>
    rw [List.flatten_cons, keysOf_append, List.mem_append, ih]
    constructor
    · intro hc
      rcases hc with hc | ⟨t2, ht2, hx2⟩
      · exact ⟨tbl, List.mem_cons_self _ _, hc⟩
      · exact ⟨t2, List.mem_cons_of_mem _ ht2, hx2⟩
    · rintro ⟨t2, ht2, hx2⟩
      rcases List.mem_cons.mp ht2 with ht2 | ht2
      · left; rw [← ht2]; exact hx2
      · right; exact ⟨t2, ht2, hx2⟩

/-- A key of a table built from the empty table by `insertPairs` over the
indexed stream of `xs` is an element of `xs`. -/
theorem mem_of_mem_keysOf_insertPairs (p : κ → Bool) (xs : List κ)
    (i0 : Nat) (k : κ)
    (hk : k ∈ keysOf (insertPairs p [] (withIdx i0 xs))) : k ∈ xs := by
  have hne := (mem_keysOf_iff _ _).mp hk
  rw [entryFor_insertPairs] at hne
  cases hidx : idxsOf p k (withIdx i0 xs) with
  | nil =>
    rw [hidx] at hne
    exact absurd rfl hne
  | cons i is_ =>
    have hmap : ((withIdx i0 xs).filter
        (fun q => p q.2 && decide (q.2 = k))).map (·.1) = i :: is_ := hidx
    cases hfil : (withIdx i0 xs).filter
        (fun q => p q.2 && decide (q.2 = k)) with
    | nil =>
      rw [hfil] at hmap
      exact absurd hmap (by simp)
    | cons q rest =>
      have hqmem : q ∈ (withIdx i0 xs).filter
          (fun q => p q.2 && decide (q.2 = k)) := by
        rw [hfil]
        exact List.mem_cons_self _ _
      have hq := List.mem_filter.mp hqmem
      have hq2 : q.2 = k := by
        have hb := hq.2
        simp only [Bool.and_eq_true, decide_eq_true_eq] at hb
        exact hb.2
      obtain ⟨d, _, hget⟩ := mem_withIdx hq.1
      rw [hq2] at hget
      exact List.get?_mem hget

theorem mem_of_mem_keysOf_workerTable (h : κ → Nat)
    (shards : List (List κ)) (t : Nat) (k : κ)
    (hk : k ∈ keysOf (workerTable h shards t)) : k ∈ shards.flatten := by
  rw [workerTable, workerScan_eq_insertPairs] at hk
  exact mem_of_mem_keysOf_insertPairs _ _ _ _ hk

theorem mem_of_mem_keysOf_serialTable (keys : List κ) (k : κ)
    (hk : k ∈ keysOf (serialTable keys)) : k ∈ keys := by
  rw [serialTable] at hk
  exact mem_of_mem_keysOf_insertPairs _ _ _ _ hk

theorem keysOf_workerTable_pred (h : κ → Nat) (shards : List (List κ))
    (t : Nat) (k : κ) (hk : k ∈ keysOf (workerTable h shards t)) :
    this_thread (h k) t shards.length = true := by
  have hne := (mem_keysOf_iff _ _).mp hk
  rw [entryFor_workerTable] at hne
  by_cases hpred : this_thread (h k) t shards.length
  · exact hpred
  · rw [if_neg hpred] at hne
    exact absurd rfl hne

theorem entryFor_mapW_flatten_none (W : Nat → Table κ) (l : List Nat)
    (k : κ) (hall : ∀ t ∈ l, entryFor (W t) k = none) :
    entryFor ((l.map W).flatten) k = none := by
  induction l with
  | nil => rfl
  | cons t ts ih =>
    rw [List.map_cons, List.flatten_cons, entryFor_append,
      hall t (List.mem_cons_self _ _)]
    exact ih (fun x hx => hall x (List.mem_cons_of_mem _ hx))

theorem entryFor_mapW_flatten_owner (W : Nat → Table κ) (l : List Nat)
    (k : κ) (v : Nat × List Nat)
    (hex : ∃ t ∈ l, entryFor (W t) k = some v)
    (hother : ∀ t ∈ l, entryFor (W t) k = some v ∨ entryFor (W t) k = none) :
    entryFor ((l.map W).flatten) k = some v := by
  induction l with
  | nil => simp at hex
  | cons t ts ih =>
    rw [List.map_cons, List.flatten_cons, entryFor_append]
    cases h0 : entryFor (W t) k with
    | some w =>
      rcases hother t (List.mem_cons_self _ _) with hc | hc
      · rw [h0] at hc
        exact hc
      · rw [h0] at hc
        exact Option.noConfusion hc
    | none =>
      simp only
      apply ih
      · obtain ⟨t2, ht2, he2⟩ := hex
        rcases List.mem_cons.mp ht2 with ht2 | ht2
        · rw [← ht2] at h0
          rw [h0] at he2
          exact Option.noConfusion he2
        · exact ⟨t2, ht2, he2⟩
      · exact fun x hx => hother x (List.mem_cons_of_mem _ hx)

theorem nodup_keysOf_flatten_workers (h : κ → Nat)
    (shards : List (List κ)) (hT1 : 1 ≤ shards.length)
    (hw : ∀ k ∈ shards.flatten, h k + shards.length ≤ U64) :
    (keysOf (((List.range shards.length).map
      (workerTable h shards)).flatten)).Nodup := by
  have main : ∀ l : List Nat, l.Nodup → (∀ t ∈ l, t < shards.length) →
      (keysOf ((l.map (workerTable h shards)).flatten)).Nodup := by
    intro l
    induction l with
    | nil =>
      intro _ _
      simp [keysOf]
    | cons t ts ih =>
      intro hnd hlt
      rw [List.nodup_cons] at hnd
      rw [List.map_cons, List.flatten_cons, keysOf_append,
        List.nodup_append]
      refine ⟨nodup_keysOf_workerTable h shards t,
        ih hnd.2 (fun x hx => hlt x (List.mem_cons_of_mem _ hx)), ?_⟩
      intro x hx1 hx2
      have hpred1 := keysOf_workerTable_pred h shards t x hx1
      obtain ⟨t2, ht2, hx3⟩ := mem_keysOf_flatten.mp hx2
      obtain ⟨t2v, ht2v, rfl⟩ := List.mem_map.mp ht2
      have hpred2 := keysOf_workerTable_pred h shards t2v x hx3
      obtain ⟨t0, _, huniq⟩ :=
        this_thread_exists_unique (h x) shards.length hT1
          (hw x (mem_of_mem_keysOf_workerTable h shards t x hx1))
      have e1 : t = t0 := huniq t ⟨hlt t (List.mem_cons_self _ _), hpred1⟩
      have e2 : t2v = t0 :=
        huniq t2v ⟨hlt t2v (List.mem_cons_of_mem _ ht2v), hpred2⟩
      exact hnd.1 (by rw [e1, ← e2]; exact ht2v)
  exact main (List.range shards.length) (List.nodup_range _)
    (fun t ht => List.mem_range.mp ht)

/-- The serial table is a permutation of the concatenation of the worker
tables: the parallel path discovers exactly the same groups with exactly
the same first indices and member lists, merely in a different entry
order. -/
theorem serialTable_perm_workerTables (h : κ → Nat)
    (shards : List (List κ)) (hT1 : 1 ≤ shards.length)
    (hw : ∀ k ∈ shards.flatten, h k + shards.length ≤ U64) :
    (serialTable shards.flatten).Perm
      (((List.range shards.length).map (workerTable h shards)).flatten) := by
  apply perm_of_entryFor_eq _ _ (nodup_keysOf_serialTable _)
    (nodup_keysOf_flatten_workers h shards hT1 hw)
  intro k
  cases hE : entryFor (serialTable shards.flatten) k with
  | none =>
    symm
    apply entryFor_mapW_flatten_none
    intro t _
    rw [entryFor_workerTable]
    by_cases hpred : this_thread (h k) t shards.length
    · rw [if_pos hpred]
      exact hE
    · rw [if_neg hpred]
  | some v =>
    symm
    have hkmem : k ∈ shards.flatten := by
      apply mem_of_mem_keysOf_serialTable shards.flatten k
      apply (mem_keysOf_iff _ _).mpr
      rw [hE]
      intro hc
      exact Option.noConfusion hc
    apply entryFor_mapW_flatten_owner
    · obtain ⟨t0, ⟨ht0, hp0⟩, _⟩ :=
        this_thread_exists_unique (h k) shards.length hT1 (hw k hkmem)
      refine ⟨t0, List.mem_range.mpr ht0, ?_⟩
      rw [entryFor_workerTable, if_pos hp0]
      exact hE
    · intro t _
      rw [entryFor_workerTable]
      by_cases hpred : this_thread (h k) t shards.length
      · rw [if_pos hpred, hE]
        exact Or.inl rfl
      · rw [if_neg hpred]
        exact Or.inr rfl

/-! ### Aggregation kernels over a value column (for C2) -/

/-- The per-group result of one aggregation kernel. -/
inductive AggValue
  | scalar (v : Option Int)
  | vlist (vs : List (Option Int))
deriving DecidableEq

/-- The kernel set named by the parallel-serial equivalence claim. -/
inductive PKernel
  | min
  | max
  | sum
  | first
  | last
  | list
deriving DecidableEq

/-- Modelled from the spec (§4.2): per-group reduction semantics of the six
kernels (their implementations live in groupby/aggregations.rs, which is
not among the supplied sources).  `min`/`max` skip nulls (all-null group →
null), `sum` skips nulls (empty → 0), `first`/`last` include nulls,
`list` preserves member order.  The argument is the group's member values
in member order. -/
def applyKernel : PKernel → List (Option Int) → AggValue
  | .min, vs => .scalar (vs.filterMap id).min?
  | .max, vs => .scalar (vs.filterMap id).max?
  | .sum, vs => .scalar (some (vs.filterMap id).sum)
  | .first, vs => .scalar (vs.headD none)
  | .last, vs => .scalar (vs.getLastD none)
  | .list, vs => .vlist vs

/-- One aggregated output row per group: the key value at the group's
first row index (the `keys()` projection via `take_iter_unchecked`,
groupby/mod.rs:577-594) paired with the kernel applied to the group's
member values (groupby/mod.rs:678-690 and the per-kernel methods). -/
def aggOutput [Inhabited κ] (keys : List κ) (vals : List (Option Int))
    (gt : GroupTuples) (K : PKernel) : List (κ × AggValue) :=
  gt.map fun g =>
    (keys.getD g.1 default,
      applyKernel K (g.2.map (fun i => vals.getD i none)))

/-- Insertion step for sorting aggregated rows on the key column. -/
def insRow [LinearOrder κ] (x : κ × AggValue) :
    List (κ × AggValue) → List (κ × AggValue)
  | [] => [x]
  | y :: ys => if x.1 ≤ y.1 then x :: y :: ys else y :: insRow x ys

/-- Sort an aggregated frame on its key column, ascending. -/
def sortOnKeys [LinearOrder κ] (rows : List (κ × AggValue)) :
    List (κ × AggValue) :=
  rows.foldr insRow []

theorem insRow_perm [LinearOrder κ] (x : κ × AggValue)
    (l : List (κ × AggValue)) : (insRow x l).Perm (x :: l) := by
  induction l with
  | nil => exact List.Perm.refl _
  | cons y ys ih =>
    by_cases hxy : x.1 ≤ y.1
    · rw [insRow, if_pos hxy]
    · rw [insRow, if_neg hxy]
      exact List.Perm.trans (List.Perm.cons y ih) (List.Perm.swap x y ys)

theorem insRow_pairwise [LinearOrder κ] (x : κ × AggValue)
    (l : List (κ × AggValue))
    (hl : l.Pairwise (fun a b => a.1 ≤ b.1)) :
    (insRow x l).Pairwise (fun a b => a.1 ≤ b.1) := by
  induction l with
  | nil => simp [insRow]
  | cons y ys ih =>
    rw [List.pairwise_cons] at hl
    by_cases hxy : x.1 ≤ y.1
    · rw [insRow, if_pos hxy]
      refine List.Pairwise.cons ?_ (List.Pairwise.cons hl.1 hl.2)
      intro z hz
      rcases List.mem_cons.mp hz with hz | hz
      · rw [hz]; exact hxy
      · exact le_trans hxy (hl.1 z hz)
    · rw [insRow, if_neg hxy]
      refine List.Pairwise.cons ?_ (ih hl.2)
      intro z hz
      have hz2 : z ∈ x :: ys := (insRow_perm x ys).mem_iff.mp hz
      rcases List.mem_cons.mp hz2 with hz2 | hz2
      · rw [hz2]
        exact le_of_not_le hxy
      · exact hl.1 z hz2

theorem sortOnKeys_perm [LinearOrder κ] (l : List (κ × AggValue)) :
    (sortOnKeys l).Perm l := by
  induction l with
  | nil => exact List.Perm.refl _
  | cons x xs ih =>
    exact List.Perm.trans (insRow_perm x (sortOnKeys xs))
      (List.Perm.cons x ih)

theorem sortOnKeys_pairwise [LinearOrder κ] (l : List (κ × AggValue)) :
    (sortOnKeys l).Pairwise (fun a b => a.1 ≤ b.1) := by
  induction l with
  | nil => simp [sortOnKeys]
  | cons x xs ih => exact insRow_pairwise x (sortOnKeys xs) ih

/-- Two key-sorted frames with duplicate-free keys that are permutations
of each other are equal. -/
theorem sorted_perm_nodup_eq [LinearOrder κ] (l1 : List (κ × AggValue)) :
    ∀ l2 : List (κ × AggValue), l1.Perm l2 →
      l1.Pairwise (fun a b => a.1 ≤ b.1) →
      l2.Pairwise (fun a b => a.1 ≤ b.1) →
      (l1.map (·.1)).Nodup → l1 = l2 := by
  induction l1 with
  | nil =>
    intro l2 hp _ _ _
    exact hp.nil_eq
  | cons x xs ih =>
    intro l2 hp hp1 hp2 hnd
    cases l2 with
    | nil => exact absurd hp.symm.nil_eq (by simp)
    | cons y ys =>
      rw [List.pairwise_cons] at hp1 hp2
      have hxy : x = y := by
        by_contra hne
        have hx2 : x ∈ y :: ys := hp.mem_iff.mp (List.mem_cons_self _ _)
        have hy1 : y ∈ x :: xs := hp.symm.mem_iff.mp (List.mem_cons_self _ _)
        have hxys : x ∈ ys := by
          rcases List.mem_cons.mp hx2 with hc | hc
          · exact absurd hc hne
          · exact hc
        have hyxs : y ∈ xs := by
          rcases List.mem_cons.mp hy1 with hc | hc
          · exact absurd hc.symm hne
          · exact hc
        have hle1 : x.1 ≤ y.1 := hp1.1 y hyxs
        have hle2 : y.1 ≤ x.1 := hp2.1 x hxys
        have hkey : x.1 = y.1 := le_antisymm hle1 hle2
        rw [List.map_cons, List.nodup_cons] at hnd
        apply hnd.1
        rw [hkey]
        exact List.mem_map.mpr ⟨y, hyxs, rfl⟩
      rw [hxy]
      congr 1
      apply ih ys ?_ hp1.2 hp2.2 ?_
      · rw [hxy] at hp
        exact hp.cons_inv
      · rw [List.map_cons, List.nodup_cons] at hnd
        exact hnd.2

theorem sortOnKeys_eq_of_perm [LinearOrder κ]
    (l1 l2 : List (κ × AggValue)) (hp : l1.Perm l2)
    (hnd : (l1.map (·.1)).Nodup) : sortOnKeys l1 = sortOnKeys l2 := by
  apply sorted_perm_nodup_eq
  · exact ((sortOnKeys_perm l1).trans hp).trans (sortOnKeys_perm l2).symm
  · exact sortOnKeys_pairwise l1
  · exact sortOnKeys_pairwise l2
  · have hmp : ((sortOnKeys l1).map (·.1)).Perm (l1.map (·.1)) :=
      (sortOnKeys_perm l1).map _
    exact (List.Perm.nodup_iff hmp).mpr hnd

/-! ### The aggregated outputs of the two paths agree after sorting -/

theorem getD_of_get? {l : List κ} {n : Nat} {k : κ}
    (h : l.get? n = some k) (d : κ) : l.getD n d = k := by
  simp only [List.getD]
  rw [h]
  rfl

theorem flatten_map_map {α β : Type} (f : α → β) (L : List (List α)) :
    (L.map (List.map f)).flatten = L.flatten.map f := by
  induction L with
  | nil => rfl
  | cons l rest ih =>
    simp only [List.map_cons, List.flatten_cons, List.map_append, ih]

theorem groupby_threaded_flat_eq_table (h : κ → Nat)
    (shards : List (List κ)) :
    groupby_threaded_flat h shards =
      (((List.range shards.length).map (workerTable h shards)).flatten).map
        (·.2) := by
  rw [groupby_threaded_flat, groupby_threaded, ← flatten_map_map,
    List.map_map]
  rfl

theorem tableRowInv_serialTable (keys : List κ) :
    TableRowInv keys (serialTable keys) :=
  tableRowInv_insertPairs (fun e he => absurd he (List.not_mem_nil e))
    (withIdx_zero_get keys)

theorem tableRowInv_workerTable (h : κ → Nat) (shards : List (List κ))
    (t : Nat) : TableRowInv shards.flatten (workerTable h shards t) := by
  rw [workerTable, workerScan_eq_insertPairs]
  exact tableRowInv_insertPairs (fun e he => absurd he (List.not_mem_nil e))
    (withIdx_zero_get shards.flatten)

theorem aggOutput_table [Inhabited κ] (keys : List κ)
    (vals : List (Option Int)) (K : PKernel) (tbl : Table κ)
    (hinv : TableRowInv keys tbl) :
    aggOutput keys vals (tbl.map (·.2)) K =
      tbl.map (fun e =>
        (e.1, applyKernel K (e.2.2.map (fun i => vals.getD i none)))) := by
  rw [aggOutput, List.map_map]
  apply List.map_congr_left
  intro e he
  simp only [Function.comp_apply]
  rw [getD_of_get? (hinv e he) default]

/-- **C2, amended.**  For every key column whose hash values stay at most
`2^64 - T` — so the wrapping `u64` addition of the partition predicate
cannot overflow and each key is owned by exactly one worker — every value
column, every hash seed, every CPU count `T ≥ 1` and every kernel of the
partitionable set, grouping with `multithreaded = false` and with
`multithreaded = true` yield — after sorting *both* outputs on the key
values — element-wise equal aggregated frames.  (The claim as frozen
sorts only one side; the serial side's entry order is hash-table
iteration order and is not sorted, see the counterexample.  The
repository's own `test_groupby_threaded` sorts both sides before
comparing.  In the wrap zone a key can land in two worker tables and even
the two-sided sorted outputs differ.) -/
theorem c2_parallel_serial_equivalence [LinearOrder κ] [Inhabited κ]
    (keys : List κ) (vals : List (Option Int)) (h : κ → Nat)
    (nCpus : Nat) (hT : 1 ≤ nCpus)
    (hw : ∀ k ∈ keys, h k + nCpus ≤ U64) (K : PKernel) :
    sortOnKeys (aggOutput keys vals (group_tuples keys false h nCpus) K)
      = sortOnKeys (aggOutput keys vals (group_tuples keys true h nCpus) K) := by
  rw [group_tuples, group_tuples]
  simp only [Bool.false_and, Bool.true_and, if_neg (Bool.false_ne_true)]
  by_cases hmt : group_multithreaded keys
  · rw [if_pos hmt]
    have hsh : (split_ca keys nCpus).flatten = keys :=
      split_ca_flatten keys nCpus hT
    have hT1 : 1 ≤ (split_ca keys nCpus).length := by
      rw [split_ca_length]; omega
    have hserial : aggOutput keys vals (groupby keys) K
        = (serialTable keys).map (fun e =>
            (e.1, applyKernel K (e.2.2.map (fun i => vals.getD i none)))) := by
      rw [groupby_eq_serialTable]
      exact aggOutput_table keys vals K _ (tableRowInv_serialTable keys)
    have hthreaded : aggOutput keys vals
        (groupby_threaded_flat h (split_ca keys nCpus)) K
        = (((List.range (split_ca keys nCpus).length).map
            (workerTable h (split_ca keys nCpus))).flatten).map (fun e =>
            (e.1, applyKernel K (e.2.2.map (fun i => vals.getD i none)))) := by
      rw [groupby_threaded_flat_eq_table]
      apply aggOutput_table
      intro e he
      obtain ⟨tbl, htbl, he2⟩ := List.mem_flatten.mp he
      obtain ⟨t, _, rfl⟩ := List.mem_map.mp htbl
      have := tableRowInv_workerTable h (split_ca keys nCpus) t e he2
      rw [hsh] at this
      exact this
    rw [hserial, hthreaded]
    apply sortOnKeys_eq_of_perm
    · apply List.Perm.map
      have := serialTable_perm_workerTables h (split_ca keys nCpus) hT1
        (by rw [hsh, split_ca_length]; exact hw)
      rw [hsh] at this
      exact this
    · rw [List.map_map]
      have : ((serialTable keys).map
          ((fun r => r.1) ∘ (fun e =>
            (e.1, applyKernel K (e.2.2.map (fun i => vals.getD i none))))))
          = keysOf (serialTable keys) := rfl
      rw [this]
      exact nodup_keysOf_serialTable keys
  · rw [if_neg hmt]

/-- Witness for the amended C2 at a concrete instance. -/
theorem c2_parallel_serial_equivalence_witness :
    sortOnKeys (aggOutput ([2, 1, 2] : List Nat)
        [some 1, some 2, some 3] (group_tuples [2, 1, 2] false id 2)
        PKernel.sum)
      = sortOnKeys (aggOutput ([2, 1, 2] : List Nat)
        [some 1, some 2, some 3] (group_tuples [2, 1, 2] true id 2)
        PKernel.sum) :=
  c2_parallel_serial_equivalence [2, 1, 2] [some 1, some 2, some 3] id 2
    (by decide) (by decide) PKernel.sum

/-- **C2, counterexample.**  The claim as frozen demands
`serial.K() = sort_on_keys(threaded.K())` — sorting only one side.  With
keys `[1, 0]` both paths run the serial algorithm (2 rows is below the
1000-row multithreading threshold) and produce the groups in first-seen
key order `1, 0`; sorting one side reorders it, so the two sides differ.
(The model fixes hash-map iteration to insertion order, one realizable
behaviour of the seed-randomized table; an invariant must hold for every
realizable order.) -/
theorem c2_counterexample :
    aggOutput ([1, 0] : List Nat) [some 10, some 20]
        (group_tuples [1, 0] false id 2) PKernel.sum
      ≠ sortOnKeys (aggOutput ([1, 0] : List Nat) [some 10, some 20]
        (group_tuples [1, 0] true id 2) PKernel.sum) := by
  decide

/-! ### C4: the planner's partitionability gate -/

/-- Aggregation expression kinds (`AggExpr`, polars-lazy). -/
inductive AAgg
  | aggMin
  | aggMax
  | aggMedian
  | aggNUnique
  | aggFirst
  | aggLast
  | aggMean
  | aggList
  | aggQuantile
  | aggSum
  | aggCount
  | aggStd
  | aggVar
deriving DecidableEq

/-- A fragment of the logical expression tree (`AExpr`) sufficient for the
planner's partitionability gate: column roots, literals, aliases, binary
expressions, `SortBy`, `Filter`, and aggregations. -/
inductive AExpr
  | column (name : String)
  | literal
  | aliasE (e : AExpr)
  | binaryExpr (l r : AExpr)
  | sortBy (e b : AExpr)
  | filterE (e p : AExpr)
  | agg (k : AAgg) (e : AExpr)
deriving DecidableEq

/-- `aexpr_to_root_nodes` (crate utils, not among the supplied sources).
Modelled from the spec: collect every `Column` node of the tree. -/
def rootColumns : AExpr → List String
  | .column n => [n]
  | .literal => []
  | .aliasE e => rootColumns e
  | .binaryExpr l r => rootColumns l ++ rootColumns r
  | .sortBy e b => rootColumns e ++ rootColumns b
  | .filterE e p => rootColumns e ++ rootColumns p
  | .agg _ e => rootColumns e

/-- `has_aexpr` with the `SortBy | Filter` matcher (planner.rs:266-269;
`has_aexpr` itself is in crate utils, not among the supplied sources —
modelled from the spec as a subtree search). -/
def hasSortByOrFilter : AExpr → Bool
  | .column _ => false
  | .literal => false
  | .aliasE e => hasSortByOrFilter e
  | .binaryExpr l r => hasSortByOrFilter l || hasSortByOrFilter r
  | .sortBy _ _ => true
  | .filterE _ _ => true
  | .agg _ e => hasSortByOrFilter e

/-- The aggregation-kind match of the gate (planner.rs:277-292): the top
node must be one of `Min | Max | Sum | Mean | Last | List | First`
(`Count` is commented out in the source). -/
def topAggPartitionable : AExpr → Bool
  | .agg .aggMin _ => true
  | .agg .aggMax _ => true
  | .agg .aggSum _ => true
  | .agg .aggMean _ => true
  | .agg .aggLast _ => true
  | .agg .aggList _ => true
  | .agg .aggFirst _ => true
  | _ => false

/-- The per-aggregation check of the gate (planner.rs:263-293): exactly
one root column, no `SortBy`/`Filter` in the subtree, and a partitionable
top aggregation. -/
def aggPartitionable (a : AExpr) : Bool :=
  decide ((rootColumns a).length = 1) && !hasSortByOrFilter a
    && topAggPartitionable a

/-- The `partitionable` flag of
`DefaultPlanner::create_initial_physical_plan` on an `Aggregate` node
(planner.rs:259-300): starts `true`; cleared unless there is exactly one
key; cleared when any aggregation fails its check (the source loop breaks
at the first failure, which `List.all` models); cleared when an `apply`
UDF is present. -/
def partitionable (keys : List String) (aggs : List AExpr)
    (hasApply : Bool) : Bool :=
  (if keys.length = 1 then aggs.all aggPartitionable else false)
    && !hasApply

inductive ExecutorKind
  | partitionGroupBy
  | groupBy
deriving DecidableEq

/-- The executor compiled for a logical `Aggregate` node
(planner.rs:303-323): `PartitionGroupByExec` when partitionable, the
plain `GroupByExec` otherwise. -/
def planAggregate (keys : List String) (aggs : List AExpr)
    (hasApply : Bool) : ExecutorKind :=
  if partitionable keys aggs hasApply then .partitionGroupBy else .groupBy

/-- Declarative reading of the aggregation set of the claim. -/
def IsPartitionableAgg (a : AExpr) : Prop :=
  ∃ e, a = .agg .aggMin e ∨ a = .agg .aggMax e ∨ a = .agg .aggSum e
    ∨ a = .agg .aggMean e ∨ a = .agg .aggFirst e ∨ a = .agg .aggLast e
    ∨ a = .agg .aggList e

theorem topAggPartitionable_iff (a : AExpr) :
    topAggPartitionable a = true ↔ IsPartitionableAgg a := by
  cases a with
  | agg k e =>
    cases k <;> simp [topAggPartitionable, IsPartitionableAgg]
  | column n => simp [topAggPartitionable, IsPartitionableAgg]
  | literal => simp [topAggPartitionable, IsPartitionableAgg]
  | aliasE e => simp [topAggPartitionable, IsPartitionableAgg]
  | binaryExpr l r => simp [topAggPartitionable, IsPartitionableAgg]
  | sortBy e b => simp [topAggPartitionable, IsPartitionableAgg]
  | filterE e p => simp [topAggPartitionable, IsPartitionableAgg]

/-- **C4** (planner partitionability gate).  The planner compiles the
partitioned executor if and only if there is exactly one key, no apply
UDF is present, and every aggregation expression has exactly one root
column, contains no `SortBy` or `Filter` node, and is one of
min/max/sum/mean/first/last/list; otherwise it compiles the plain
group-by executor. -/
theorem c4_planner_partitionability_gate (keys : List String)
    (aggs : List AExpr) (hasApply : Bool) :
    planAggregate keys aggs hasApply = ExecutorKind.partitionGroupBy ↔
      (keys.length = 1 ∧ hasApply = false ∧
        ∀ a ∈ aggs, (rootColumns a).length = 1
          ∧ hasSortByOrFilter a = false ∧ IsPartitionableAgg a) := by
  rw [planAggregate]
  have hiff : partitionable keys aggs hasApply = true ↔
      (keys.length = 1 ∧ hasApply = false ∧
        ∀ a ∈ aggs, (rootColumns a).length = 1
          ∧ hasSortByOrFilter a = false ∧ IsPartitionableAgg a) := by
    rw [partitionable, Bool.and_eq_true]
    constructor
    · rintro ⟨h1, h2⟩
      by_cases hkeys : keys.length = 1
      · rw [if_pos hkeys] at h1
        refine ⟨hkeys, by simpa using h2, ?_⟩
        intro a ha
        have := (List.all_eq_true.mp h1) a ha
        rw [aggPartitionable, Bool.and_eq_true, Bool.and_eq_true] at this
        exact ⟨by simpa using this.1.1, by simpa using this.1.2,
          (topAggPartitionable_iff a).mp this.2⟩
      · rw [if_neg hkeys] at h1
        exact absurd h1 (by simp)
    · rintro ⟨h1, h2, h3⟩
      refine ⟨?_, by simpa using h2⟩
      rw [if_pos h1]
      apply List.all_eq_true.mpr
      intro a ha
      obtain ⟨ha1, ha2, ha3⟩ := h3 a ha
      rw [aggPartitionable, Bool.and_eq_true, Bool.and_eq_true]
      exact ⟨⟨by simpa using ha1, by simpa using ha2⟩,
        (topAggPartitionable_iff a).mpr ha3⟩
  by_cases hpart : partitionable keys aggs hasApply
  · rw [if_pos hpart]
    simp only [true_iff]
    exact hiff.mp hpart
  · rw [if_neg hpart]
    constructor
    · intro hc
      exact absurd hc (by simp)
    · intro hc
      exact absurd (hiff.mpr hc) hpart

/-- Witness for C4 at a concrete instance. -/
theorem c4_planner_partitionability_gate_witness :
    planAggregate ["k"] [AExpr.agg AAgg.aggSum (AExpr.column "v")] false
        = ExecutorKind.partitionGroupBy ↔
      ((["k"] : List String).length = 1 ∧ false = false ∧
        ∀ a ∈ [AExpr.agg AAgg.aggSum (AExpr.column "v")],
          (rootColumns a).length = 1
            ∧ hasSortByOrFilter a = false ∧ IsPartitionableAgg a) :=
  c4_planner_partitionability_gate ["k"]
    [AExpr.agg AAgg.aggSum (AExpr.column "v")] false

/-! ### C5: cardinality adaptation of the partitioned executor -/

inductive ExecPath
  | plainPath
  | partitionedPath
deriving DecidableEq

/-- The key column as seen by `PartitionGroupByExec::execute`: its values
and, when the column is categorical, its dictionary size
(`categorical_map.len()`). -/
structure KeyColumn (κ : Type) where
  values : List (Option κ)
  catDictSize : Option Nat

/-- `sample_cardinality` (executors/groupby.rs:188-192): the unique
fraction of a contiguous middle slice — offset `len / 2`, at most
`sample_size` values (`Series::slice` clamps at the end of the column).
Exact rational arithmetic stands in for the `f32` division; on the empty
slice the source computes `0/0 = NaN`, which fails the later `>` test
exactly as the rational `0/0 = 0` does. -/
def sample_cardinality [DecidableEq κ] (vals : List (Option κ))
    (sampleSize : Nat) : ℚ :=
  let s := (vals.drop (vals.length / 2)).take sampleSize
  (s.dedup.length : ℚ) / (s.length : ℚ)

/-- The unique-key fraction of the executor (executors/groupby.rs:215-226):
exactly `dictionary_size / n` for a categorical key, the middle-slice
sample estimate otherwise. -/
def cardinalityFrac [DecidableEq κ] (key : KeyColumn κ)
    (sampleSize : Nat) : ℚ :=
  match key.catDictSize with
  | some d => (d : ℚ) / (key.values.length : ℚ)
  | none => sample_cardinality key.values sampleSize

/-- The path decision of `PartitionGroupByExec::execute`
(executors/groupby.rs:194-247): with the `POLARS_NO_PARTITION` knob set,
or with the unique-key fraction above the threshold
(`POLARS_PARTITION_CARDINALITY_FRAC`, default `0.1`; sample size
`POLARS_PARTITION_SAMPLE_SIZE`, default `1250`), the plain single-key
hash aggregation runs (`groupby_helper`); otherwise the two-phase
partitioned aggregation runs (`run_partititions`, vertical merge, outer
reduce). -/
def executeDecision [DecidableEq κ] (noPartition : Bool) (cardFrac : ℚ)
    (sampleSize : Nat) (key : KeyColumn κ) : ExecPath :=
  if noPartition then .plainPath
  else if cardinalityFrac key sampleSize > cardFrac then .plainPath
  else .partitionedPath

/-- **C5** (cardinality adaptation).  The executor abandons partitioning
and runs the plain path exactly when the environment knob is set or the
unique-key fraction exceeds the threshold; the fraction is
`dictionary_size / n` for a categorical key and the unique fraction of a
contiguous middle slice of at most `sampleSize` rows otherwise; in every
other case the two-phase partitioned aggregation runs. -/
theorem c5_cardinality_adaptation [DecidableEq κ] (noPartition : Bool)
    (cardFrac : ℚ) (sampleSize : Nat) (key : KeyColumn κ) :
    (executeDecision noPartition cardFrac sampleSize key = ExecPath.plainPath
      ↔ noPartition = true ∨ cardinalityFrac key sampleSize > cardFrac)
    ∧ (∀ d, key.catDictSize = some d →
        cardinalityFrac key sampleSize = (d : ℚ) / (key.values.length : ℚ))
    ∧ (key.catDictSize = none →
        cardinalityFrac key sampleSize
          = sample_cardinality key.values sampleSize)
    ∧ ((key.values.drop (key.values.length / 2)).take sampleSize).length
        = min sampleSize (key.values.length - key.values.length / 2)
    ∧ (executeDecision noPartition cardFrac sampleSize key
        = ExecPath.partitionedPath
      ↔ ¬ (noPartition = true ∨ cardinalityFrac key sampleSize > cardFrac)) := by
  refine ⟨?_, ?_, ?_, ?_, ?_⟩
  · rw [executeDecision]
    by_cases hnp : noPartition
    · simp [hnp]
    · rw [if_neg hnp]
      by_cases hfrac : cardinalityFrac key sampleSize > cardFrac
      · simp [hfrac, hnp]
      · simp [hfrac, hnp]
  · intro d hd
    rw [cardinalityFrac, hd]
  · intro hd
    rw [cardinalityFrac, hd]
  · rw [List.length_take, List.length_drop]
  · rw [executeDecision]
    by_cases hnp : noPartition
    · simp [hnp]
    · rw [if_neg hnp]
      by_cases hfrac : cardinalityFrac key sampleSize > cardFrac
      · simp [hfrac, hnp]
      · simp [hfrac, hnp]

/-- Witness for C5 at a concrete instance. -/
theorem c5_cardinality_adaptation_witness :
    (executeDecision false (1/10 : ℚ) 1250
        (⟨[some 1, some 1, some 1, some 2], none⟩ : KeyColumn Nat)
        = ExecPath.plainPath
      ↔ false = true
        ∨ cardinalityFrac
            (⟨[some 1, some 1, some 1, some 2], none⟩ : KeyColumn Nat) 1250
            > (1/10 : ℚ))
    ∧ (∀ d, (⟨[some 1, some 1, some 1, some 2], none⟩ :
          KeyColumn Nat).catDictSize = some d →
        cardinalityFrac
            (⟨[some 1, some 1, some 1, some 2], none⟩ : KeyColumn Nat) 1250
          = (d : ℚ) / ((⟨[some 1, some 1, some 1, some 2], none⟩ :
              KeyColumn Nat).values.length : ℚ))
    ∧ ((⟨[some 1, some 1, some 1, some 2], none⟩ :
          KeyColumn Nat).catDictSize = none →
        cardinalityFrac
            (⟨[some 1, some 1, some 1, some 2], none⟩ : KeyColumn Nat) 1250
          = sample_cardinality
              (⟨[some 1, some 1, some 1, some 2], none⟩ :
                KeyColumn Nat).values 1250)
    ∧ (((⟨[some 1, some 1, some 1, some 2], none⟩ :
          KeyColumn Nat).values.drop
            ((⟨[some 1, some 1, some 1, some 2], none⟩ :
              KeyColumn Nat).values.length / 2)).take 1250).length
        = min 1250
            ((⟨[some 1, some 1, some 1, some 2], none⟩ :
              KeyColumn Nat).values.length
              - (⟨[some 1, some 1, some 1, some 2], none⟩ :
                  KeyColumn Nat).values.length / 2)
    ∧ (executeDecision false (1/10 : ℚ) 1250
        (⟨[some 1, some 1, some 1, some 2], none⟩ : KeyColumn Nat)
        = ExecPath.partitionedPath
      ↔ ¬ (false = true
        ∨ cardinalityFrac
            (⟨[some 1, some 1, some 1, some 2], none⟩ : KeyColumn Nat) 1250
            > (1/10 : ℚ))) :=
  c5_cardinality_adaptation false (1/10 : ℚ) 1250
    (⟨[some 1, some 1, some 1, some 2], none⟩ : KeyColumn Nat)

/-! ### C7: output column naming -/

/-- `GroupByMethod` (groupby/mod.rs:1217-1233); the quantile carries its
parameter, with exact rationals standing in for `f64`. -/
inductive GroupByMethod
  | min
  | max
  | median
  | mean
  | first
  | last
  | sum
  | groups
  | nUnique
  | quantile (q : ℚ)
  | count
  | list
  | std
  | var
deriving DecidableEq

/-- Two-decimal formatting of the quantile parameter (`{:.2}`), modelled
for the non-negative parameters the API admits (`quantile` validates
`q ∈ [0, 1]`): round to the nearest hundredth — computed on the reduced
fraction as `(200 num + den) / (2 den)`, which is `round (q * 100)` for
`q ≥ 0` — and print two decimal digits. -/
def fmtTwoDecimals (q : ℚ) : String :=
  let c : Int := (200 * q.num + q.den) / (2 * (q.den : Int))
  toString (c / 100) ++ "." ++
    (if c % 100 < 10 then "0" ++ toString (c % 100) else toString (c % 100))

/-- `fmt_groupby_column` (groupby/mod.rs:1236-1254). -/
def fmt_groupby_column (name : String) (method : GroupByMethod) : String :=
  match method with
  | .min => name ++ "_min"
  | .max => name ++ "_max"
  | .median => name ++ "_median"
  | .mean => name ++ "_mean"
  | .first => name ++ "_first"
  | .last => name ++ "_last"
  | .sum => name ++ "_sum"
  | .groups => "groups"
  | .nUnique => name ++ "_n_unique"
  | .count => name ++ "_count"
  | .list => name ++ "_agg_list"
  | .quantile q => name ++ "_quantile_" ++ fmtTwoDecimals q
  | .std => name ++ "_agg_std"
  | .var => name ++ "_agg_var"

/-- **C7, counterexample.**  The claim names the std result column
`c_std`; the source formats it as `c_agg_std` (groupby/mod.rs:1251). -/
theorem c7_counterexample :
    fmt_groupby_column "c" GroupByMethod.std ≠ "c" ++ "_" ++ "std" := by
  decide

/-- **C7, amended.**  The result column for input `c` is `c_<method>` for
min, max, median, mean, first, last, sum, n_unique and count; `groups`
yields the fixed name `"groups"`; `quantile(q)` yields
`c_quantile_<q to two decimals>`; but list, std and var carry an `agg_`
infix: `c_agg_list`, `c_agg_std`, `c_agg_var`. -/
theorem c7_output_column_naming (name : String) (q : ℚ) :
    fmt_groupby_column name GroupByMethod.min = name ++ "_min"
    ∧ fmt_groupby_column name GroupByMethod.max = name ++ "_max"
    ∧ fmt_groupby_column name GroupByMethod.median = name ++ "_median"
    ∧ fmt_groupby_column name GroupByMethod.mean = name ++ "_mean"
    ∧ fmt_groupby_column name GroupByMethod.first = name ++ "_first"
    ∧ fmt_groupby_column name GroupByMethod.last = name ++ "_last"
    ∧ fmt_groupby_column name GroupByMethod.sum = name ++ "_sum"
    ∧ fmt_groupby_column name GroupByMethod.groups = "groups"
    ∧ fmt_groupby_column name GroupByMethod.nUnique = name ++ "_n_unique"
    ∧ fmt_groupby_column name GroupByMethod.count = name ++ "_count"
    ∧ fmt_groupby_column name (GroupByMethod.quantile q)
        = name ++ "_quantile_" ++ fmtTwoDecimals q
    ∧ fmt_groupby_column name GroupByMethod.list = name ++ "_agg_list"
    ∧ fmt_groupby_column name GroupByMethod.std = name ++ "_agg_std"
    ∧ fmt_groupby_column name GroupByMethod.var = name ++ "_agg_var"
    ∧ fmt_groupby_column "temp" (GroupByMethod.quantile (1/5))
        = "temp_quantile_0.20" := by
  refine ⟨rfl, rfl, rfl, rfl, rfl, rfl, rfl, rfl, rfl, rfl, rfl, rfl, rfl,
    rfl, ?_⟩
  have h1 : (1/5 : ℚ).num = 1 := by norm_num
  have h2 : ((1/5 : ℚ).den : Int) = 5 := by norm_num
  rw [fmt_groupby_column, fmtTwoDecimals, h1, h2]
  rfl

/-! ### Series, DataFrames, errors (for C8, C9, C10) -/

/-- A column's data, by dtype.  `ints` models the integral dtypes
(including date32/date64, which are i32/i64 in disguise); `floats` carries
exact rationals standing in for f64 payloads; `cat` is a
dictionary-encoded u32 code column; `listS` is a list-of-int column
(list-of-T, representative element type). -/
inductive SeriesData
  | ints (xs : List (Option Int))
  | floats (xs : List (Option ℚ))
  | utf8 (xs : List (Option String))
  | boolS (xs : List (Option Bool))
  | cat (codes : List (Option Nat))
  | listS (xs : List (List Int))
  | listNat (xs : List (List Nat))
deriving DecidableEq

def seriesLen : SeriesData → Nat
  | .ints xs => xs.length
  | .floats xs => xs.length
  | .utf8 xs => xs.length
  | .boolS xs => xs.length
  | .cat xs => xs.length
  | .listS xs => xs.length
  | .listNat xs => xs.length

abbrev NamedSeries := String × SeriesData

/-- A DataFrame: named columns (§3 Frame). -/
abbrev DF := List NamedSeries

/-- `DataFrame::height`: the length of the first column, `0` for an empty
frame. -/
def dfHeight (df : DF) : Nat :=
  match df with
  | [] => 0
  | c :: _ => seriesLen c.2

/-- The error kinds relevant to these claims (`PolarsError`).  The source
has no `UnsupportedAggregation` variant; unknown driver tokens surface as
`PolarsError::Other` with a message. -/
inductive PolarsErr
  | shapeMisMatch
  | notFound
  | other (msg : String)
deriving DecidableEq

/-- The observable outcome of a fallible call: a value, a returned error,
or an abort (`panic!` / `unimplemented!` do not return an `Err` to the
caller). -/
inductive Outcome (α : Type)
  | ok (v : α)
  | err (e : PolarsErr)
  | aborted
deriving DecidableEq

/-- Modelled from the spec (§3 Frame): `DataFrame::new` (polars-core
frame/mod.rs, not among the supplied sources) validates that all columns
share one length, failing with `ShapeMisMatch` otherwise. -/
def dfNew (cols : DF) : Outcome DF :=
  match cols with
  | [] => .ok []
  | c0 :: rest =>
    if rest.all (fun c => seriesLen c.2 == seriesLen c0.2) then
      .ok (c0 :: rest)
    else .err .shapeMisMatch

/-- One cell of a key frame row, for multi-key structural equality
(`compare_df_rows`). -/
inductive CellV
  | cInt (v : Option Int)
  | cFloat (v : Option ℚ)
  | cStr (v : Option String)
  | cBool (v : Option Bool)
  | cCat (v : Option Nat)
  | cList (v : List Int)
  | cListN (v : List Nat)
deriving DecidableEq

def cellAt : SeriesData → Nat → CellV
  | .ints xs, i => .cInt (xs.getD i none)
  | .floats xs, i => .cFloat (xs.getD i none)
  | .utf8 xs, i => .cStr (xs.getD i none)
  | .boolS xs, i => .cBool (xs.getD i none)
  | .cat xs, i => .cCat (xs.getD i none)
  | .listS xs, i => .cList (xs.getD i [])
  | .listNat xs, i => .cListN (xs.getD i [])

/-- The key tuple of one row (componentwise equality = `compare_df_rows`,
groupby/mod.rs:123-130). -/
def rowTuple (keys : DF) (i : Nat) : List CellV :=
  keys.map (fun c => cellAt c.2 i)

/-- `Series::group_tuples` dispatch by dtype.  The numeric, boolean, utf8
and u32-coded categorical columns run the hash-table discovery
(`IntoGroupTuples`, groupby/mod.rs:299-408; categorical first casts to
its u32 codes, groupby/mod.rs:361-367); `ListChunked` (and
`ObjectChunked`) use the trait's default body, `unimplemented!()`
(groupby/mod.rs:258-265 and 409-411), so grouping by a list column
panics.  The serial discovery stands in for both the serial and the
sharded path; by `serialTable_perm_workerTables` the two differ only in
entry order, which the error-behaviour claims never observe. -/
def seriesGroupTuples (s : SeriesData) (multithreaded : Bool) :
    Outcome GroupTuples :=
  match multithreaded, s with
  | _, .ints xs => .ok (groupby xs)
  | _, .floats xs => .ok (groupby xs)
  | _, .utf8 xs => .ok (groupby xs)
  | _, .boolS xs => .ok (groupby xs)
  | _, .cat xs => .ok (groupby xs)
  | _, .listS _ => .aborted
  | _, .listNat _ => .aborted

/-- `DataFrame::groupby_with_series` (groupby/mod.rs:413-446): reject an
empty key list or a first key whose length differs from the frame height
with `ShapeMisMatch`; build the keys frame (`DataFrame::new`, which
rejects unequal key lengths; the categorical→u32 cast is
length-preserving and infallible); then dispatch to the single-key
`group_tuples` or the multi-key row-hash discovery. -/
def groupby_with_series (df : DF) (by_ : DF) (multithreaded : Bool) :
    Outcome GroupTuples :=
  match by_ with
  | [] => .err .shapeMisMatch
  | k0 :: rest =>
    if seriesLen k0.2 ≠ dfHeight df then .err .shapeMisMatch
    else
      match dfNew (k0 :: rest) with
      | .err e => .err e
      | .aborted => .aborted
      | .ok keysDf =>
        match rest with
        | [] => seriesGroupTuples k0.2 multithreaded
        | _ => .ok (groupby_multiple_keys
            ((List.range (seriesLen k0.2)).map (rowTuple keysDf)))

/-- **C10, amended.**  `groupby_with_series` fails with `ShapeMisMatch`
exactly when the key list is empty, the first key's length differs from
the frame height, or a later key's length differs from the first's; every
returned error is a `ShapeMisMatch` (in particular none is caused by a
dtype); but a well-shaped *single* key of List dtype does not return at
all: it panics through the `unimplemented!()` default of
`IntoGroupTuples`. -/
theorem c10_shape_mismatch_behaviour (df : DF) (by_ : DF) (mt : Bool) :
    (groupby_with_series df by_ mt = Outcome.err PolarsErr.shapeMisMatch ↔
      (by_ = [] ∨ ∃ k0 rest, by_ = k0 :: rest ∧
        (seriesLen k0.2 ≠ dfHeight df
          ∨ ∃ c ∈ rest, seriesLen c.2 ≠ seriesLen k0.2)))
    ∧ (∀ e, groupby_with_series df by_ mt = Outcome.err e →
        e = PolarsErr.shapeMisMatch)
    ∧ (groupby_with_series df by_ mt = Outcome.aborted ↔
        ∃ k0, by_ = [k0] ∧ seriesLen k0.2 = dfHeight df ∧
          ((∃ xs, k0.2 = SeriesData.listS xs)
            ∨ (∃ xs, k0.2 = SeriesData.listNat xs))) := by
  cases by_ with
  | nil =>
    refine ⟨by simp [groupby_with_series], ?_, ?_⟩
    · intro e he
      simp only [groupby_with_series] at he
      cases he
      rfl
    · simp [groupby_with_series]
  | cons k0 rest =>
    by_cases hlen : seriesLen k0.2 ≠ dfHeight df
    · refine ⟨?_, ?_, ?_⟩
      · simp only [groupby_with_series, if_pos hlen]
        constructor
        · intro _
          exact Or.inr ⟨k0, rest, rfl, Or.inl hlen⟩
        · intro _
          trivial
      · intro e he
        simp only [groupby_with_series, if_pos hlen] at he
        cases he
        rfl
      · simp only [groupby_with_series, if_pos hlen]
        constructor
        · intro hc
          exact Option.noConfusion (congrArg (fun o => match o with
            | Outcome.err _ => (none : Option Unit)
            | _ => some ()) hc)
        · rintro ⟨k1, hk1, hk2, _⟩
          cases hk1
          exact absurd hk2 hlen
    · rw [not_not] at hlen
      by_cases hrest : rest.all (fun c => seriesLen c.2 == seriesLen k0.2)
      · have hnew : dfNew (k0 :: rest) = .ok (k0 :: rest) := by
          simp only [dfNew, if_pos hrest]
        refine ⟨?_, ?_, ?_⟩
        · simp only [groupby_with_series, if_neg (not_not.mpr hlen), hnew]
          cases rest with
          | nil =>
            constructor
            · intro hc
              cases hk : k0.2 <;> rw [hk] at hc <;>
                simp [seriesGroupTuples] at hc
            · rintro (hc | ⟨k1, rest1, hk1, hc⟩)
              · exact List.noConfusion hc
              · obtain ⟨e1, e2⟩ := List.cons.inj hk1
                subst e1
                cases e2
                rcases hc with hc | ⟨c, hc, _⟩
                · exact absurd hlen hc
                · cases hc
          | cons c1 cs =>
            constructor
            · intro hc
              exact Option.noConfusion (congrArg (fun o => match o with
                | Outcome.err _ => (none : Option Unit)
                | _ => some ()) hc)
            · rintro (hc | ⟨k1, rest1, hk1, hc⟩)
              · exact List.noConfusion hc
              · obtain ⟨e1, e2⟩ := List.cons.inj hk1
                subst e1
                subst e2
                rcases hc with hc | ⟨c, hcm, hcl⟩
                · exact absurd hlen hc
                · have hceq : seriesLen c.2 = seriesLen k0.2 := by
                    have := List.all_eq_true.mp hrest c hcm
                    simpa using this
                  exact absurd hceq hcl
        · intro e he
          simp only [groupby_with_series, if_neg (not_not.mpr hlen),
            hnew] at he
          cases rest with
          | nil =>
            cases hk : k0.2 <;> rw [hk] at he <;>
              simp [seriesGroupTuples] at he
          | cons c1 cs => cases he
        · simp only [groupby_with_series, if_neg (not_not.mpr hlen), hnew]
          cases rest with
          | nil =>
            constructor
            · intro hc
              cases hk : k0.2 with
              | ints xs => rw [hk] at hc; simp [seriesGroupTuples] at hc
              | floats xs => rw [hk] at hc; simp [seriesGroupTuples] at hc
              | utf8 xs => rw [hk] at hc; simp [seriesGroupTuples] at hc
              | boolS xs => rw [hk] at hc; simp [seriesGroupTuples] at hc
              | cat xs => rw [hk] at hc; simp [seriesGroupTuples] at hc
              | listS xs => exact ⟨k0, rfl, hlen, Or.inl ⟨xs, hk⟩⟩
              | listNat xs => exact ⟨k0, rfl, hlen, Or.inr ⟨xs, hk⟩⟩
            · rintro ⟨k1, hk1, _, hdl⟩
              cases hk1
              rcases hdl with ⟨xs, hxs⟩ | ⟨xs, hxs⟩ <;> rw [hxs] <;>
                simp [seriesGroupTuples]
          | cons c1 cs =>
            constructor
            · intro hc
              exact Option.noConfusion (congrArg (fun o => match o with
                | Outcome.aborted => (none : Option Unit)
                | _ => some ()) hc)
            · rintro ⟨k1, hk1, _, _⟩
              exact List.noConfusion (List.cons.inj hk1).2
      · have hnew : dfNew (k0 :: rest) = .err .shapeMisMatch := by
          simp only [dfNew, if_neg hrest]
        obtain ⟨c, hcm, hcl⟩ : ∃ c ∈ rest,
            ¬ (seriesLen c.2 == seriesLen k0.2) = true := by
          by_contra hall
          push_neg at hall
          exact hrest (List.all_eq_true.mpr hall)
        refine ⟨?_, ?_, ?_⟩
        · simp only [groupby_with_series, if_neg (not_not.mpr hlen), hnew]
          constructor
          · intro _
            exact Or.inr ⟨k0, rest, rfl,
              Or.inr ⟨c, hcm, by simpa using hcl⟩⟩
          · intro _
            trivial
        · intro e he
          simp only [groupby_with_series, if_neg (not_not.mpr hlen),
            hnew] at he
          cases he
          rfl
        · simp only [groupby_with_series, if_neg (not_not.mpr hlen), hnew]
          constructor
          · intro hc
            exact Option.noConfusion (congrArg (fun o => match o with
              | Outcome.err _ => (none : Option Unit)
              | _ => some ()) hc)
          · rintro ⟨k1, hk1, _, _⟩
            obtain ⟨e1, e2⟩ := List.cons.inj hk1
            rw [e2] at hcm
            cases hcm

/-- **C10, counterexample.**  A well-shaped single key of List dtype does
not return an error: the call panics (`unimplemented!()` through the
`IntoGroupTuples` default, groupby/mod.rs:262-264 and 409), refuting
"never fails on account of a key's dtype". -/
theorem c10_counterexample :
    groupby_with_series [("v", SeriesData.ints [some 1, some 2])]
        [("k", SeriesData.listS [[1], [2]])] true = Outcome.aborted
    ∧ seriesLen (SeriesData.listS [[1], [2]])
        = dfHeight [("v", SeriesData.ints [some 1, some 2])] :=
  ⟨rfl, rfl⟩

/-- Witness for the amended C10 at a concrete instance. -/
theorem c10_shape_mismatch_behaviour_witness :
    (groupby_with_series [("v", SeriesData.ints [some 1])]
        [("k", SeriesData.ints [some 2, some 3])] true
        = Outcome.err PolarsErr.shapeMisMatch ↔
      ([("k", SeriesData.ints [some 2, some 3])] = ([] : DF)
        ∨ ∃ k0 rest, [("k", SeriesData.ints [some 2, some 3])] = k0 :: rest
          ∧ (seriesLen k0.2 ≠ dfHeight [("v", SeriesData.ints [some 1])]
            ∨ ∃ c ∈ rest, seriesLen c.2 ≠ seriesLen k0.2)))
    ∧ (∀ e, groupby_with_series [("v", SeriesData.ints [some 1])]
        [("k", SeriesData.ints [some 2, some 3])] true = Outcome.err e →
        e = PolarsErr.shapeMisMatch)
    ∧ (groupby_with_series [("v", SeriesData.ints [some 1])]
        [("k", SeriesData.ints [some 2, some 3])] true = Outcome.aborted ↔
        ∃ k0, [("k", SeriesData.ints [some 2, some 3])] = [k0]
          ∧ seriesLen k0.2 = dfHeight [("v", SeriesData.ints [some 1])]
          ∧ ((∃ xs, k0.2 = SeriesData.listS xs)
            ∨ (∃ xs, k0.2 = SeriesData.listNat xs))) :=
  c10_shape_mismatch_behaviour [("v", SeriesData.ints [some 1])]
    [("k", SeriesData.ints [some 2, some 3])] true

/-! ### The aggregation methods of a group session (C8) -/

/-- `take` of a column at a list of row indices (the `take_iter_unchecked`
projection). -/
def seriesTake (s : SeriesData) (idxs : List Nat) : SeriesData :=
  match s with
  | .ints xs => .ints (idxs.map (fun i => xs.getD i none))
  | .floats xs => .floats (idxs.map (fun i => xs.getD i none))
  | .utf8 xs => .utf8 (idxs.map (fun i => xs.getD i none))
  | .boolS xs => .boolS (idxs.map (fun i => xs.getD i none))
  | .cat xs => .cat (idxs.map (fun i => xs.getD i none))
  | .listS xs => .listS (idxs.map (fun i => xs.getD i []))
  | .listNat xs => .listNat (idxs.map (fun i => xs.getD i []))

/-- `GroupBy::keys` (groupby/mod.rs:577-594): every key column projected
to the groups' first row indices. -/
def keysProjection (selKeys : DF) (groups : GroupTuples) : DF :=
  selKeys.map (fun c => (c.1, seriesTake c.2 (groups.map (·.1))))

/-- The aggregation target selection of `prepare_agg`
(groupby/mod.rs:596-612): the explicit selection if one was made,
otherwise every frame column whose name is not a key name. -/
def selectionOf (df selKeys : DF) (selAgg : Option (List String)) :
    List String :=
  match selAgg with
  | some sel => sel
  | none =>
    (df.map (·.1)).filter (fun n => !((selKeys.map (·.1)).contains n))

/-- `DataFrame::select_series` on a list of names: the matching columns,
or `none` when a name is missing (surfaced as a not-found error). -/
def dfSelect (df : DF) (names : List String) : Option DF :=
  if names.all (fun n => (df.find? (fun c => c.1 == n)).isSome) then
    some (names.filterMap (fun n => df.find? (fun c => c.1 == n)))
  else none

/-- `agg_sum`, modelled from the spec (§4.2; groupby/aggregations.rs is
not among the supplied sources): numeric per-group sum skipping nulls
(empty group → 0); `None` for every non-numeric dtype (e.g. the sum of a
UTF-8 column). -/
def agg_sum (s : SeriesData) (groups : GroupTuples) : Option SeriesData :=
  match s with
  | .ints xs => some (.ints (groups.map (fun g =>
      some ((g.2.map (fun i => xs.getD i none)).filterMap id).sum)))
  | .floats xs => some (.floats (groups.map (fun g =>
      some ((g.2.map (fun i => xs.getD i none)).filterMap id).sum)))
  | _ => none

/-- `agg_n_unique`, modelled from the spec (§4.2): distinct non-null
values per group, plus one when the group has a null; no kernel for float
columns — witnessed by the repository's own test, which asserts the f64
column is dropped (groupby/mod.rs:1354-1358) — nor for list columns. -/
def agg_n_unique (s : SeriesData) (groups : GroupTuples) :
    Option SeriesData :=
  match s with
  | .ints xs => some (.ints (groups.map (fun g =>
      let vs := g.2.map (fun i => xs.getD i none)
      some (((vs.filterMap id).dedup.length : Int)
        + (if vs.contains none then 1 else 0)))))
  | .utf8 xs => some (.ints (groups.map (fun g =>
      let vs := g.2.map (fun i => xs.getD i none)
      some (((vs.filterMap id).dedup.length : Int)
        + (if vs.contains none then 1 else 0)))))
  | .boolS xs => some (.ints (groups.map (fun g =>
      let vs := g.2.map (fun i => xs.getD i none)
      some (((vs.filterMap id).dedup.length : Int)
        + (if vs.contains none then 1 else 0)))))
  | .cat xs => some (.ints (groups.map (fun g =>
      let vs := g.2.map (fun i => xs.getD i none)
      some (((vs.filterMap id).dedup.length : Int)
        + (if vs.contains none then 1 else 0)))))
  | _ => none

/-- The shared shape of the optional-kernel aggregation methods
(`GroupBy::sum`, `mean`, `min`, `max`, `n_unique`, `median`, `std`,
`var`, `quantile`, `agg_list`; groupby/mod.rs:639-955, 1171-1181):
project the keys, then push one renamed column per selected column whose
dtype has the kernel — a column without the kernel is silently skipped
(`if let Some(mut agg) = opt_agg`). -/
def gbMethodOpt (kernel : SeriesData → GroupTuples → Option SeriesData)
    (m : GroupByMethod) (df selKeys : DF) (groups : GroupTuples)
    (selAgg : Option (List String)) : Outcome DF :=
  match dfSelect df (selectionOf df selKeys selAgg) with
  | none => .err .notFound
  | some aggCols =>
    dfNew (keysProjection selKeys groups ++ aggCols.filterMap (fun c =>
      (kernel c.2 groups).map (fun s => (fmt_groupby_column c.1 m, s))))

/-- `GroupBy::sum` (groupby/mod.rs:678-690). -/
def gbSum (df selKeys : DF) (groups : GroupTuples)
    (selAgg : Option (List String)) : Outcome DF :=
  gbMethodOpt agg_sum GroupByMethod.sum df selKeys groups selAgg

/-- `GroupBy::n_unique` (groupby/mod.rs:865-876). -/
def gbNUnique (df selKeys : DF) (groups : GroupTuples)
    (selAgg : Option (List String)) : Outcome DF :=
  gbMethodOpt agg_n_unique GroupByMethod.nUnique df selKeys groups selAgg

theorem seriesLen_seriesTake (s : SeriesData) (idxs : List Nat) :
    seriesLen (seriesTake s idxs) = idxs.length := by
  cases s <;> simp [seriesTake, seriesLen]

theorem agg_sum_len {s s2 : SeriesData} {groups : GroupTuples}
    (h : agg_sum s groups = some s2) : seriesLen s2 = groups.length := by
  cases s <;> simp [agg_sum] at h <;> rw [← h] <;> simp [seriesLen]

theorem agg_n_unique_len {s s2 : SeriesData} {groups : GroupTuples}
    (h : agg_n_unique s groups = some s2) :
    seriesLen s2 = groups.length := by
  cases s <;> simp [agg_n_unique] at h <;> rw [← h] <;> simp [seriesLen]

theorem dfNew_ok_of_const_len (cols : DF) (n : Nat)
    (h : ∀ c ∈ cols, seriesLen c.2 = n) : dfNew cols = .ok cols := by
  cases cols with
  | nil => rfl
  | cons c0 rest =>
    rw [dfNew, if_pos]
    apply List.all_eq_true.mpr
    intro c hc
    have h1 := h c (List.mem_cons_of_mem _ hc)
    have h2 := h c0 (List.mem_cons_self _ _)
    simp [h1, h2]

theorem filterMap_opt_names {α β : Type} (f : α → Option β)
    (nm : α → String) (l : List α) :
    (l.filterMap (fun c => (f c).map (fun s => (nm c, s)))).map (·.1)
      = (l.filter (fun c => (f c).isSome)).map nm := by
  induction l with
  | nil => rfl
  | cons c cs ih =>
    cases hf : f c <;>
      simp [List.filterMap_cons, List.filter_cons, hf, ih]

theorem gbMethodOpt_ok
    (kernel : SeriesData → GroupTuples → Option SeriesData)
    (m : GroupByMethod) (df selKeys : DF) (groups : GroupTuples)
    (selAgg : Option (List String)) (aggCols : DF)
    (hker : ∀ s s2, kernel s groups = some s2 →
      seriesLen s2 = groups.length)
    (hsel : dfSelect df (selectionOf df selKeys selAgg) = some aggCols) :
    gbMethodOpt kernel m df selKeys groups selAgg
      = .ok (keysProjection selKeys groups ++ aggCols.filterMap (fun c =>
          (kernel c.2 groups).map (fun s =>
            (fmt_groupby_column c.1 m, s)))) := by
  rw [gbMethodOpt, hsel]
  apply dfNew_ok_of_const_len _ groups.length
  intro c hc
  rcases List.mem_append.mp hc with hc | hc
  · rw [keysProjection] at hc
    obtain ⟨c0, _, rfl⟩ := List.mem_map.mp hc
    exact seriesLen_seriesTake _ _ |>.trans (by rw [List.length_map])
  · obtain ⟨c0, _, hfm⟩ := List.mem_filterMap.mp hc
    cases hk : kernel c0.2 groups with
    | none => rw [hk] at hfm; cases hfm
    | some s2 =>
      rw [hk] at hfm
      have : c = (fmt_groupby_column c0.1 m, s2) := by
        simpa using hfm.symm
      rw [this]
      exact hker _ _ hk

/-- **C8, amended.**  When a requested optional-kernel aggregation (here
`sum` and `n_unique`) meets a target column whose dtype has no kernel for
the method, the operation does *not* fail: it succeeds, silently omitting
that column from the result — the result's aggregation columns are
exactly the supported targets, renamed.  (The repository's own test
documents this: groupby/mod.rs:1354-1358 asserts the frame is 2 wide
because the f64 column has no `n_unique` kernel.) -/
theorem c8_unsupported_dtype_skipped (df selKeys : DF)
    (groups : GroupTuples) (selAgg : Option (List String)) (aggCols : DF)
    (hsel : dfSelect df (selectionOf df selKeys selAgg) = some aggCols) :
    (gbSum df selKeys groups selAgg
      = .ok (keysProjection selKeys groups ++ aggCols.filterMap (fun c =>
          (agg_sum c.2 groups).map (fun s =>
            (fmt_groupby_column c.1 GroupByMethod.sum, s)))))
    ∧ (gbNUnique df selKeys groups selAgg
      = .ok (keysProjection selKeys groups ++ aggCols.filterMap (fun c =>
          (agg_n_unique c.2 groups).map (fun s =>
            (fmt_groupby_column c.1 GroupByMethod.nUnique, s)))))
    ∧ ((aggCols.filterMap (fun c => (agg_sum c.2 groups).map (fun s =>
          (fmt_groupby_column c.1 GroupByMethod.sum, s)))).map (·.1)
        = (aggCols.filter (fun c => (agg_sum c.2 groups).isSome)).map
            (fun c => fmt_groupby_column c.1 GroupByMethod.sum)) := by
  refine ⟨?_, ?_, ?_⟩
  · exact gbMethodOpt_ok agg_sum GroupByMethod.sum df selKeys groups
      selAgg aggCols (fun s s2 h => agg_sum_len h) hsel
  · exact gbMethodOpt_ok agg_n_unique GroupByMethod.nUnique df selKeys
      groups selAgg aggCols (fun s s2 h => agg_n_unique_len h) hsel
  · exact filterMap_opt_names _ _ _

/-- Witness for the amended C8 at a concrete instance. -/
theorem c8_unsupported_dtype_skipped_witness :
    (gbSum [("k", SeriesData.ints [some 0, some 0]),
        ("s", SeriesData.utf8 [some "a", some "b"])]
        [("k", SeriesData.ints [some 0, some 0])] [(0, [0, 1])] none
      = .ok (keysProjection [("k", SeriesData.ints [some 0, some 0])]
          [(0, [0, 1])]
        ++ ([("s", SeriesData.utf8 [some "a", some "b"])] : DF).filterMap
          (fun c => (agg_sum c.2 [(0, [0, 1])]).map (fun s =>
            (fmt_groupby_column c.1 GroupByMethod.sum, s)))))
    ∧ (gbNUnique [("k", SeriesData.ints [some 0, some 0]),
        ("s", SeriesData.utf8 [some "a", some "b"])]
        [("k", SeriesData.ints [some 0, some 0])] [(0, [0, 1])] none
      = .ok (keysProjection [("k", SeriesData.ints [some 0, some 0])]
          [(0, [0, 1])]
        ++ ([("s", SeriesData.utf8 [some "a", some "b"])] : DF).filterMap
          (fun c => (agg_n_unique c.2 [(0, [0, 1])]).map (fun s =>
            (fmt_groupby_column c.1 GroupByMethod.nUnique, s)))))
    ∧ ((([("s", SeriesData.utf8 [some "a", some "b"])] : DF).filterMap
          (fun c => (agg_sum c.2 [(0, [0, 1])]).map (fun s =>
            (fmt_groupby_column c.1 GroupByMethod.sum, s)))).map (·.1)
        = (([("s", SeriesData.utf8 [some "a", some "b"])] : DF).filter
            (fun c => (agg_sum c.2 [(0, [0, 1])]).isSome)).map
            (fun c => fmt_groupby_column c.1 GroupByMethod.sum)) :=
  c8_unsupported_dtype_skipped
    [("k", SeriesData.ints [some 0, some 0]),
      ("s", SeriesData.utf8 [some "a", some "b"])]
    [("k", SeriesData.ints [some 0, some 0])] [(0, [0, 1])] none
    [("s", SeriesData.utf8 [some "a", some "b"])] (by decide)

/-- **C8, counterexample.**  Summing a frame whose only target column is
UTF-8 (no sum kernel) *succeeds* with that column absent — it does not
fail with any error, refuting the claim. -/
theorem c8_counterexample :
    gbSum [("k", SeriesData.ints [some 0, some 0]),
        ("s", SeriesData.utf8 [some "a", some "b"])]
        [("k", SeriesData.ints [some 0, some 0])]
        (groupby ([some 0, some 0] : List (Option Int))) none
      = Outcome.ok [("k", SeriesData.ints [some 0])]
    ∧ agg_sum (SeriesData.utf8 [some "a", some "b"])
        (groupby ([some 0, some 0] : List (Option Int))) = none := by
  exact ⟨by decide, rfl⟩

/-! ### The kernel-name token dispatch (C9) -/

/-- The per-dtype kernel implementations live in groupby/aggregations.rs,
which is not among the supplied sources; the dispatch behaviour under
scrutiny is independent of them, so they are parameters.  `first` and
`last` are total (`finish_agg!`); the rest are optional
(`finish_agg_opt!`). -/
structure KernelSet where
  kmin : SeriesData → GroupTuples → Option SeriesData
  kmax : SeriesData → GroupTuples → Option SeriesData
  kmean : SeriesData → GroupTuples → Option SeriesData
  ksum : SeriesData → GroupTuples → Option SeriesData
  knunique : SeriesData → GroupTuples → Option SeriesData
  kmedian : SeriesData → GroupTuples → Option SeriesData
  kstd : SeriesData → GroupTuples → Option SeriesData
  kvar : SeriesData → GroupTuples → Option SeriesData
  klist : SeriesData → GroupTuples → Option SeriesData
  kfirst : SeriesData → GroupTuples → SeriesData
  klast : SeriesData → GroupTuples → SeriesData

/-- The `count` column of a group-by (groupby/mod.rs:982-995, 1125-1136):
the member count per group, always available. -/
def countColumn (groups : GroupTuples) : SeriesData :=
  SeriesData.ints (groups.map (fun g => some (g.2.length : Int)))

/-- The kernel-name tokens accepted by `GroupBy::agg`
(groupby/mod.rs:1112-1136). -/
def knownAggTokens : List String :=
  ["min", "max", "mean", "sum", "first", "last", "n_unique", "median",
    "std", "var", "count"]

/-- The token dispatch of `GroupBy::agg` for one selected column and one
kernel-name token (groupby/mod.rs:1108-1143): a known token pushes the
renamed kernel output (an optional kernel may push nothing); an unknown
token hits `panic!("aggregation: {:?} is not supported")` —
modelled as `none`.  The match on `&str` is the sequential comparison
chain written out. -/
def aggToken (ks : KernelSet) (groups : GroupTuples) (col : NamedSeries)
    (token : String) : Option (List NamedSeries) :=
  if token = "min" then
    some ((ks.kmin col.2 groups).map (fun s => (col.1 ++ "_min", s))).toList
  else if token = "max" then
    some ((ks.kmax col.2 groups).map (fun s => (col.1 ++ "_max", s))).toList
  else if token = "mean" then
    some ((ks.kmean col.2 groups).map (fun s => (col.1 ++ "_mean", s))).toList
  else if token = "sum" then
    some ((ks.ksum col.2 groups).map (fun s => (col.1 ++ "_sum", s))).toList
  else if token = "first" then
    some [(col.1 ++ "_first", ks.kfirst col.2 groups)]
  else if token = "last" then
    some [(col.1 ++ "_last", ks.klast col.2 groups)]
  else if token = "n_unique" then
    some ((ks.knunique col.2 groups).map
      (fun s => (col.1 ++ "_n_unique", s))).toList
  else if token = "median" then
    some ((ks.kmedian col.2 groups).map
      (fun s => (col.1 ++ "_median", s))).toList
  else if token = "std" then
    some ((ks.kstd col.2 groups).map (fun s => (col.1 ++ "_std", s))).toList
  else if token = "var" then
    some ((ks.kvar col.2 groups).map (fun s => (col.1 ++ "_var", s))).toList
  else if token = "count" then
    some [(col.1 ++ "_count", countColumn groups)]
  else none

/-- Concatenate two optional column batches; a panic (`none`) on either
side propagates. -/
def appendOpt (a b : Option (List NamedSeries)) :
    Option (List NamedSeries) :=
  match a, b with
  | some x, some y => some (x ++ y)
  | _, _ => none

/-- Run every token of one column, aborting on the first unknown one. -/
def aggAllTokens (ks : KernelSet) (groups : GroupTuples)
    (col : NamedSeries) : List String → Option (List NamedSeries)
  | [] => some []
  | t :: ts =>
    appendOpt (aggToken ks groups col t) (aggAllTokens ks groups col ts)

/-- Run the column-to-aggregations map over the selected columns
(groupby/mod.rs:1108-1141): a column without an entry is skipped. -/
def aggAllCols (ks : KernelSet) (groups : GroupTuples)
    (cta : List (String × List String)) :
    List NamedSeries → Option (List NamedSeries)
  | [] => some []
  | c :: cs =>
    match cta.find? (fun e => e.1 == c.1) with
    | none => aggAllCols ks groups cta cs
    | some e =>
      appendOpt (aggAllTokens ks groups c e.2) (aggAllCols ks groups cta cs)

/-- `GroupBy::agg` (groupby/mod.rs:1076-1143). -/
def gbAgg (ks : KernelSet) (df selKeys : DF) (groups : GroupTuples)
    (selAgg : Option (List String))
    (cta : List (String × List String)) : Outcome DF :=
  match dfSelect df (selectionOf df selKeys selAgg) with
  | none => .err .notFound
  | some aggCols =>
    match aggAllCols ks groups cta aggCols with
    | none => .aborted
    | some newCols => dfNew (keysProjection selKeys groups ++ newCols)

/-- The total-kernel methods (`GroupBy::first` / `last`,
groupby/mod.rs:793-838). -/
def gbMethodFull (kernel : SeriesData → GroupTuples → SeriesData)
    (m : GroupByMethod) (df selKeys : DF) (groups : GroupTuples)
    (selAgg : Option (List String)) : Outcome DF :=
  match dfSelect df (selectionOf df selKeys selAgg) with
  | none => .err .notFound
  | some aggCols =>
    dfNew (keysProjection selKeys groups ++ aggCols.map (fun c =>
      (fmt_groupby_column c.1 m, kernel c.2 groups)))

/-- `GroupBy::count` (groupby/mod.rs:982-995). -/
def gbCount (df selKeys : DF) (groups : GroupTuples)
    (selAgg : Option (List String)) : Outcome DF :=
  match dfSelect df (selectionOf df selKeys selAgg) with
  | none => .err .notFound
  | some aggCols =>
    dfNew (keysProjection selKeys groups ++ aggCols.map (fun c =>
      (fmt_groupby_column c.1 GroupByMethod.count, countColumn groups)))

/-- `GroupBy::groups` (groupby/mod.rs:1022-1037): the keys plus a single
list-of-u32 column of member indices named `"groups"`. -/
def gbGroups (selKeys : DF) (groups : GroupTuples) : Outcome DF :=
  dfNew (keysProjection selKeys groups
    ++ [(fmt_groupby_column "" GroupByMethod.groups,
      SeriesData.listNat (groups.map (·.2)))])

/-- `finish_groupby` (py-polars dataframe.rs:808-829): the driver's token
dispatch.  Known tokens (including `agg_list` and `groups`, which
`GroupBy::agg` does not accept) run the corresponding method; an unknown
token returns `Err(PolarsError::Other("agg fn <token> does not
exists"))`. -/
def finish_groupby (ks : KernelSet) (df selKeys : DF)
    (groups : GroupTuples) (selAgg : Option (List String))
    (token : String) : Outcome DF :=
  if token = "min" then
    gbMethodOpt ks.kmin GroupByMethod.min df selKeys groups selAgg
  else if token = "max" then
    gbMethodOpt ks.kmax GroupByMethod.max df selKeys groups selAgg
  else if token = "mean" then
    gbMethodOpt ks.kmean GroupByMethod.mean df selKeys groups selAgg
  else if token = "first" then
    gbMethodFull ks.kfirst GroupByMethod.first df selKeys groups selAgg
  else if token = "last" then
    gbMethodFull ks.klast GroupByMethod.last df selKeys groups selAgg
  else if token = "sum" then
    gbMethodOpt ks.ksum GroupByMethod.sum df selKeys groups selAgg
  else if token = "count" then
    gbCount df selKeys groups selAgg
  else if token = "n_unique" then
    gbMethodOpt ks.knunique GroupByMethod.nUnique df selKeys groups selAgg
  else if token = "median" then
    gbMethodOpt ks.kmedian GroupByMethod.median df selKeys groups selAgg
  else if token = "agg_list" then
    gbMethodOpt ks.klist GroupByMethod.list df selKeys groups selAgg
  else if token = "groups" then
    gbGroups selKeys groups
  else if token = "std" then
    gbMethodOpt ks.kstd GroupByMethod.std df selKeys groups selAgg
  else if token = "var" then
    gbMethodOpt ks.kvar GroupByMethod.var df selKeys groups selAgg
  else .err (.other ("agg fn " ++ token ++ " does not exists"))

/-- The tokens `finish_groupby` accepts. -/
def finishTokens : List String :=
  ["min", "max", "mean", "first", "last", "sum", "count", "n_unique",
    "median", "agg_list", "groups", "std", "var"]

theorem dfNew_ne_aborted (cols : DF) : dfNew cols ≠ Outcome.aborted := by
  cases cols with
  | nil => intro hc; cases hc
  | cons c0 rest =>
    rw [dfNew]
    by_cases hall : rest.all (fun c => seriesLen c.2 == seriesLen c0.2)
    · rw [if_pos hall]
      intro hc; cases hc
    · rw [if_neg hall]
      intro hc; cases hc

theorem gbMethodOpt_ne_aborted (kernel m df selKeys groups selAgg) :
    gbMethodOpt kernel m df selKeys groups selAgg ≠ Outcome.aborted := by
  rw [gbMethodOpt]
  cases dfSelect df (selectionOf df selKeys selAgg) with
  | none => intro hc; cases hc
  | some aggCols => exact dfNew_ne_aborted _

theorem gbMethodFull_ne_aborted (kernel m df selKeys groups selAgg) :
    gbMethodFull kernel m df selKeys groups selAgg ≠ Outcome.aborted := by
  rw [gbMethodFull]
  cases dfSelect df (selectionOf df selKeys selAgg) with
  | none => intro hc; cases hc
  | some aggCols => exact dfNew_ne_aborted _

theorem gbCount_ne_aborted (df selKeys groups selAgg) :
    gbCount df selKeys groups selAgg ≠ Outcome.aborted := by
  rw [gbCount]
  cases dfSelect df (selectionOf df selKeys selAgg) with
  | none => intro hc; cases hc
  | some aggCols => exact dfNew_ne_aborted _

theorem gbGroups_ne_aborted (selKeys groups) :
    gbGroups selKeys groups ≠ Outcome.aborted :=
  dfNew_ne_aborted _

theorem aggToken_unknown (token : String)
    (htok : token ∉ knownAggTokens) (ks : KernelSet)
    (groups : GroupTuples) (c : NamedSeries) :
    aggToken ks groups c token = none := by
  simp only [knownAggTokens, List.mem_cons, not_or,
    List.not_mem_nil] at htok
  obtain ⟨h1, h2, h3, h4, h5, h6, h7, h8, h9, h10, h11, _⟩ := htok
  simp only [aggToken, if_neg h1, if_neg h2, if_neg h3, if_neg h4,
    if_neg h5, if_neg h6, if_neg h7, if_neg h8, if_neg h9, if_neg h10,
    if_neg h11]

theorem appendOpt_none_right (a : Option (List NamedSeries)) :
    appendOpt a none = none := by
  cases a <;> rfl

theorem aggAllTokens_unknown (token : String)
    (htok : token ∉ knownAggTokens) (ks : KernelSet)
    (groups : GroupTuples) (c : NamedSeries) (ts : List String)
    (hmem : token ∈ ts) : aggAllTokens ks groups c ts = none := by
  induction ts with
  | nil => cases hmem
  | cons t ts2 ih =>
    rw [aggAllTokens]
    rcases List.mem_cons.mp hmem with hmem | hmem
    · rw [← hmem, aggToken_unknown token htok ks groups c]
      rfl
    · rw [ih hmem, appendOpt_none_right]

theorem aggAllCols_unknown (token : String)
    (htok : token ∉ knownAggTokens) (ks : KernelSet)
    (groups : GroupTuples) (cta : List (String × List String))
    (cols : List NamedSeries)
    (hex : ∃ c ∈ cols, ∃ e, cta.find? (fun x => x.1 == c.1) = some e
      ∧ token ∈ e.2) :
    aggAllCols ks groups cta cols = none := by
  induction cols with
  | nil =>
    obtain ⟨c, hc, _⟩ := hex
    cases hc
  | cons c0 cs ih =>
    obtain ⟨c, hc, e, hfind, hmem⟩ := hex
    rw [aggAllCols]
    rcases List.mem_cons.mp hc with hc | hc
    · rw [hc] at hfind
      rw [hfind]
      show appendOpt (aggAllTokens ks groups c0 e.2)
        (aggAllCols ks groups cta cs) = none
      rw [aggAllTokens_unknown token htok ks groups c0 e.2 hmem]
      rfl
    · have hrest : aggAllCols ks groups cta cs = none :=
        ih ⟨c, hc, e, hfind, hmem⟩
      cases hf : cta.find? (fun x => x.1 == c0.1) with
      | none => exact hrest
      | some e0 =>
        show appendOpt (aggAllTokens ks groups c0 e0.2)
          (aggAllCols ks groups cta cs) = none
        rw [hrest, appendOpt_none_right]

/-- **C9, amended.**  `GroupBy::agg` does *not* return an error on a
kernel-name token outside its accepted set
{min, max, mean, sum, first, last, n_unique, median, std, var, count}:
it panics (`panic!("aggregation: ... is not supported")`,
groupby/mod.rs:1137), aborting rather than returning.  The Python
driver's dispatch `finish_groupby` — whose accepted set additionally
contains `agg_list` and `groups` — is the one that returns an error for
unknown tokens, and that error is `PolarsError::Other("agg fn <token>
does not exists")`, not an `UnsupportedAggregation` (no such variant
exists); `finish_groupby` itself never aborts. -/
theorem c9_unknown_token_dispatch (token : String)
    (htok : token ∉ knownAggTokens) (htok2 : token ∉ finishTokens)
    (ks : KernelSet) (df selKeys : DF) (groups : GroupTuples)
    (selAgg : Option (List String)) (cta : List (String × List String))
    (aggCols : DF) (c0 : NamedSeries) (tk : String)
    (hsel : dfSelect df (selectionOf df selKeys selAgg) = some aggCols)
    (hex : ∃ c ∈ aggCols, ∃ e, cta.find? (fun x => x.1 == c.1) = some e
      ∧ token ∈ e.2) :
    aggToken ks groups c0 token = none
    ∧ gbAgg ks df selKeys groups selAgg cta = Outcome.aborted
    ∧ finish_groupby ks df selKeys groups selAgg token
        = Outcome.err (PolarsErr.other
            ("agg fn " ++ token ++ " does not exists"))
    ∧ finish_groupby ks df selKeys groups selAgg tk ≠ Outcome.aborted := by
  refine ⟨aggToken_unknown token htok ks groups c0, ?_, ?_, ?_⟩
  · rw [gbAgg, hsel]
    show (match aggAllCols ks groups cta aggCols with
      | none => Outcome.aborted
      | some newCols => dfNew (keysProjection selKeys groups ++ newCols))
      = Outcome.aborted
    rw [aggAllCols_unknown token htok ks groups cta aggCols hex]
  · simp only [finishTokens, List.mem_cons, not_or,
      List.not_mem_nil] at htok2
    obtain ⟨g1, g2, g3, g4, g5, g6, g7, g8, g9, g10, g11, g12, g13, _⟩ :=
      htok2
    rw [finish_groupby, if_neg g1, if_neg g2, if_neg g3, if_neg g4,
      if_neg g5, if_neg g6, if_neg g7, if_neg g8, if_neg g9, if_neg g10,
      if_neg g11, if_neg g12, if_neg g13]
  · rw [finish_groupby]
    by_cases e1 : tk = "min"
    · rw [if_pos e1]; exact gbMethodOpt_ne_aborted _ _ _ _ _ _
    rw [if_neg e1]
    by_cases e2 : tk = "max"
    · rw [if_pos e2]; exact gbMethodOpt_ne_aborted _ _ _ _ _ _
    rw [if_neg e2]
    by_cases e3 : tk = "mean"
    · rw [if_pos e3]; exact gbMethodOpt_ne_aborted _ _ _ _ _ _
    rw [if_neg e3]
    by_cases e4 : tk = "first"
    · rw [if_pos e4]; exact gbMethodFull_ne_aborted _ _ _ _ _ _
    rw [if_neg e4]
    by_cases e5 : tk = "last"
    · rw [if_pos e5]; exact gbMethodFull_ne_aborted _ _ _ _ _ _
    rw [if_neg e5]
    by_cases e6 : tk = "sum"
    · rw [if_pos e6]; exact gbMethodOpt_ne_aborted _ _ _ _ _ _
    rw [if_neg e6]
    by_cases e7 : tk = "count"
    · rw [if_pos e7]; exact gbCount_ne_aborted _ _ _ _
    rw [if_neg e7]
    by_cases e8 : tk = "n_unique"
    · rw [if_pos e8]; exact gbMethodOpt_ne_aborted _ _ _ _ _ _
    rw [if_neg e8]
    by_cases e9 : tk = "median"
    · rw [if_pos e9]; exact gbMethodOpt_ne_aborted _ _ _ _ _ _
    rw [if_neg e9]
    by_cases e10 : tk = "agg_list"
    · rw [if_pos e10]; exact gbMethodOpt_ne_aborted _ _ _ _ _ _
    rw [if_neg e10]
    by_cases e11 : tk = "groups"
    · rw [if_pos e11]; exact gbGroups_ne_aborted _ _
    rw [if_neg e11]
    by_cases e12 : tk = "std"
    · rw [if_pos e12]; exact gbMethodOpt_ne_aborted _ _ _ _ _ _
    rw [if_neg e12]
    by_cases e13 : tk = "var"
    · rw [if_pos e13]; exact gbMethodOpt_ne_aborted _ _ _ _ _ _
    rw [if_neg e13]
    intro hc
    cases hc

/-- An arbitrary kernel instantiation for the concrete dispatch tests;
the behaviour under test never invokes it. -/
def trivialKernels : KernelSet :=
  ⟨fun _ _ => none, fun _ _ => none, fun _ _ => none, fun _ _ => none,
    fun _ _ => none, fun _ _ => none, fun _ _ => none, fun _ _ => none,
    fun _ _ => none, fun s _ => s, fun s _ => s⟩

/-- Witness for the amended C9 at a concrete instance. -/
theorem c9_unknown_token_dispatch_witness :
    aggToken trivialKernels [(0, [0])]
        ("v", SeriesData.ints [some 1]) "foo" = none
    ∧ gbAgg trivialKernels
        [("k", SeriesData.ints [some 0]), ("v", SeriesData.ints [some 1])]
        [("k", SeriesData.ints [some 0])] [(0, [0])] none
        [("v", ["foo"])] = Outcome.aborted
    ∧ finish_groupby trivialKernels
        [("k", SeriesData.ints [some 0]), ("v", SeriesData.ints [some 1])]
        [("k", SeriesData.ints [some 0])] [(0, [0])] none "foo"
        = Outcome.err (PolarsErr.other
            ("agg fn " ++ "foo" ++ " does not exists"))
    ∧ finish_groupby trivialKernels
        [("k", SeriesData.ints [some 0]), ("v", SeriesData.ints [some 1])]
        [("k", SeriesData.ints [some 0])] [(0, [0])] none "sum"
        ≠ Outcome.aborted :=
  c9_unknown_token_dispatch "foo" (by decide) (by decide) trivialKernels
    [("k", SeriesData.ints [some 0]), ("v", SeriesData.ints [some 1])]
    [("k", SeriesData.ints [some 0])] [(0, [0])] none [("v", ["foo"])]
    [("v", SeriesData.ints [some 1])] ("v", SeriesData.ints [some 1])
    "sum" (by decide) (by decide)

/-- **C9, counterexample.**  `GroupBy::agg` on the unknown token `"foo"`
aborts (`panic!`) instead of returning an `UnsupportedAggregation("foo")`
error to the caller; the driver returns `Other("agg fn foo does not
exists")`, also not `UnsupportedAggregation`. -/
theorem c9_counterexample :
    gbAgg trivialKernels
        [("k", SeriesData.ints [some 0]), ("v", SeriesData.ints [some 1])]
        [("k", SeriesData.ints [some 0])] [(0, [0])] none
        [("v", ["foo"])] = Outcome.aborted
    ∧ finish_groupby trivialKernels
        [("k", SeriesData.ints [some 0]), ("v", SeriesData.ints [some 1])]
        [("k", SeriesData.ints [some 0])] [(0, [0])] none "foo"
        = Outcome.err (PolarsErr.other "agg fn foo does not exists") := by
  exact ⟨by decide, by decide⟩

end Polars
